import Mathlib

/-!
Verification development for the agent-crawl repository.

The development shallowly embeds the crawl orchestration core:
* `src/core/UrlUtils.ts` (URL normalization) together with a model of the
  WHATWG `URL` platform object it manipulates (`parseUrl` / `serializeUrl`);
* `src/core/Robots.ts` (robots.txt parsing and matching);
* `src/core/HostScheduler.ts` (per-host admission control), as a guarded
  transition system over admission/release traces;
* `AgentCrawl.crawl` (the BFS loop), as a fuel-indexed state-transition
  function parameterized by a scrape oracle standing for the external
  single-page scrape operation.

Strings are handled as `List Char` in the models (via `String.data`), and
machine numbers as `Nat`/`Int`.
-/

/-! ### Generic list scanners used by the string-level models -/

/-- Scan a character list up to (but excluding) the first occurrence of one of
`delims`; returns the scanned part and the remainder (which is either empty or
starts with a delimiter). -/
def scanUntil (delims : List Char) : List Char → List Char × List Char
  | [] => ([], [])
  | c :: rest =>
    if c ∈ delims then ([], c :: rest)
    else
      let r := scanUntil delims rest
      (c :: r.1, r.2)

/-- Split a character list on a separator character, JavaScript
`String.prototype.split` style (always at least one segment). -/
def splitOnChar (d : Char) : List Char → List (List Char)
  | [] => [[]]
  | c :: rest =>
    if c = d then [] :: splitOnChar d rest
    else
      match splitOnChar d rest with
      | [] => [[c]]
      | seg :: segs => (c :: seg) :: segs

theorem scanUntil_app_parts (delims : List Char) :
    ∀ l : List Char, (scanUntil delims l).1 ++ (scanUntil delims l).2 = l := by
  intro l
  induction l with
  | nil => simp [scanUntil]
  | cons c rest ih =>
    by_cases h : c ∈ delims <;> simp [scanUntil, h, ih]

theorem scanUntil_no_delim (delims : List Char) (l : List Char)
    (h : ∀ c ∈ l, c ∉ delims) : scanUntil delims l = (l, []) := by
  induction l with
  | nil => simp [scanUntil]
  | cons c rest ih =>
    have hc : c ∉ delims := h c (by simp)
    have hr := ih (fun x hx => h x (by simp [hx]))
    simp [scanUntil, hc, hr]

theorem scanUntil_stops (delims : List Char) (pre : List Char) (d : Char)
    (post : List Char) (hpre : ∀ c ∈ pre, c ∉ delims) (hd : d ∈ delims) :
    scanUntil delims (pre ++ d :: post) = (pre, d :: post) := by
  induction pre with
  | nil => simp [scanUntil, hd]
  | cons c rest ih =>
    have hc : c ∉ delims := hpre c (by simp)
    have hr := ih (fun x hx => hpre x (by simp [hx]))
    simp [scanUntil, hc, hr]

theorem scanUntil_fst_no_delim (delims : List Char) :
    ∀ l : List Char, ∀ c ∈ (scanUntil delims l).1, c ∉ delims := by
  intro l
  induction l with
  | nil => simp [scanUntil]
  | cons c rest ih =>
    by_cases h : c ∈ delims
    · simp [scanUntil, h]
    · simp only [scanUntil, if_neg h]
      intro x hx
      rcases List.mem_cons.mp hx with h1 | h1
      · exact h1 ▸ h
      · exact ih x h1

theorem scanUntil_mem_fst (delims : List Char) :
    ∀ l : List Char, ∀ c ∈ (scanUntil delims l).1, c ∈ l := by
  intro l c hc
  have := scanUntil_app_parts delims l
  rw [← this]
  exact List.mem_append_left _ hc

theorem scanUntil_mem_snd (delims : List Char) :
    ∀ l : List Char, ∀ c ∈ (scanUntil delims l).2, c ∈ l := by
  intro l c hc
  have := scanUntil_app_parts delims l
  rw [← this]
  exact List.mem_append_right _ hc

theorem splitOnChar_ne_nil (d : Char) : ∀ l : List Char, splitOnChar d l ≠ [] := by
  intro l
  induction l with
  | nil => simp [splitOnChar]
  | cons c rest ih =>
    by_cases h : c = d
    · simp [splitOnChar, h]
    · simp only [splitOnChar, if_neg h]
      cases hs : splitOnChar d rest with
      | nil => simp
      | cons seg segs => simp

theorem splitOnChar_mem_seg (d : Char) :
    ∀ l : List Char, ∀ seg ∈ splitOnChar d l, ∀ c ∈ seg, c ∈ l := by
  intro l
  induction l with
  | nil =>
    intro seg hseg c hc
    simp [splitOnChar] at hseg
    subst hseg
    simp at hc
  | cons x rest ih =>
    intro seg hseg c hc
    by_cases h : x = d
    · simp only [splitOnChar, if_pos h] at hseg
      rcases List.mem_cons.mp hseg with h1 | h1
      · subst h1; simp at hc
      · exact List.mem_cons_of_mem _ (ih seg h1 c hc)
    · simp only [splitOnChar, if_neg h] at hseg
      cases hs : splitOnChar d rest with
      | nil => exact absurd hs (splitOnChar_ne_nil d rest)
      | cons s ss =>
        rw [hs] at hseg
        rcases List.mem_cons.mp hseg with h1 | h1
        · subst h1
          rcases List.mem_cons.mp hc with h2 | h2
          · simp [h2]
          · exact List.mem_cons_of_mem _ (ih s (by simp [hs]) c h2)
        · exact List.mem_cons_of_mem _ (ih seg (by simp [hs, h1]) c hc)

/-- The head segment of a character-level split is the longest hit-free
initial run of the input. -/
theorem splitOnChar_head (d : Char) :
    ∀ l : List Char, (splitOnChar d l).headD [] = l.takeWhile (fun c => c ≠ d) := by
  intro l
  induction l with
  | nil => simp [splitOnChar]
  | cons c rest ih =>
    by_cases h : c = d
    · simp [splitOnChar, h, List.takeWhile]
    · simp only [splitOnChar, if_neg h]
      cases hs : splitOnChar d rest with
      | nil => exact absurd hs (splitOnChar_ne_nil d rest)
      | cons seg segs =>
        rw [hs] at ih
        simp only [List.headD] at ih ⊢
        rw [List.takeWhile_cons]
        simp only [ne_eq, decide_not] at ih ⊢
        simp [h, ih]

/-! ### Character facts (ASCII lowercasing as done by the JS engine) -/

theorem charOfNat_toNat (n : Nat) (h : n.isValidChar) : (Char.ofNat n).toNat = n := by
  simp only [Char.ofNat, dif_pos h, Char.ofNatAux, Char.toNat, UInt32.toNat]
  simp

theorem toLower_toNat (c : Char) :
    (65 ≤ c.toNat ∧ c.toNat ≤ 90 ∧ c.toLower.toNat = c.toNat + 32) ∨ c.toLower = c := by
  by_cases h : c.toNat ≥ 65 ∧ c.toNat ≤ 90
  · left
    refine ⟨h.1, h.2, ?_⟩
    simp only [Char.toLower, if_pos h]
    exact charOfNat_toNat _ (by left; omega)
  · right
    simp only [Char.toLower, if_neg h]

theorem toLower_idem (c : Char) : c.toLower.toLower = c.toLower := by
  rcases toLower_toNat c with ⟨h1, h2, h3⟩ | h
  · have hno : ¬ (65 ≤ c.toLower.toNat ∧ c.toLower.toNat ≤ 90) := by omega
    simp only [Char.toLower] at hno ⊢
    rw [if_neg (by omega)]
  · rw [h, h]

theorem toNat_inj_ne (a b : Char) (h : a.toNat ≠ b.toNat) : a ≠ b := by
  intro hc; exact h (by rw [hc])

/-- Lowercasing cannot produce a character whose code is outside the ASCII
lowercase range if it changes anything; so it never introduces URL delimiter
characters. -/
theorem toLower_ne_low (c d : Char) (hd : d.toNat < 97 ∨ 122 < d.toNat) (h : c ≠ d) :
    c.toLower ≠ d := by
  rcases toLower_toNat c with ⟨h1, h2, h3⟩ | hh
  · exact toNat_inj_ne _ _ (by omega)
  · rw [hh]; exact h

theorem map_toLower_idem (l : List Char) :
    (l.map Char.toLower).map Char.toLower = l.map Char.toLower := by
  rw [List.map_map]
  exact List.map_congr_left (fun c _ => toLower_idem c)

theorem isDigit_ne_delims (c : Char) (h : c.isDigit = true) :
    c ≠ '/' ∧ c ≠ '?' ∧ c ≠ '#' ∧ c ≠ ':' := by
  refine ⟨?_, ?_, ?_, ?_⟩ <;> (intro hc; subst hc; simp [Char.isDigit] at h)

/-! ### The URL model

`src/core/UrlUtils.ts` manipulates WHATWG `URL` platform objects.  The model
below represents the platform object as a record of its components and
`parseUrl`/`serializeUrl` model `new URL(input)` / `url.href` for
hierarchical http(s)-style URLs (`scheme://host[:port][/path][?query][#frag]`;
userinfo and IPv6 host brackets are outside the model).  As the platform
does, parsing lowercases the scheme and hostname (ASCII) and drops the
scheme's default port. -/

structure UrlRec where
  scheme : List Char
  host : List Char
  port : List Char
  path : List Char
  query : Option (List Char)
  frag : Option (List Char)
deriving DecidableEq, Repr

def isSchemeChar (c : Char) : Bool :=
  c.isAlpha || c.isDigit || c = '+' || c = '-' || c = '.'

/-- Dropping the scheme's default port, as both the platform parser and the
normalizer's explicit default-port rule do (the source compares the port
string against `'80'` / `'443'`). -/
def defaultPortDrop (scheme port : List Char) : List Char :=
  if (scheme = "http".data ∧ port = "80".data) ∨ (scheme = "https".data ∧ port = "443".data)
  then [] else port

/-- Path, query and fragment of the serialized remainder after the authority. -/
def parseAfterHost (scheme host port0 rest : List Char) : Option UrlRec :=
  let port := defaultPortDrop scheme port0
  let ps := scanUntil ['?', '#'] rest
  let path := if ps.1 = [] then ['/'] else ps.1
  match ps.2 with
  | [] => some ⟨scheme, host, port, path, none, none⟩
  | '?' :: qrest =>
    let qs := scanUntil ['#'] qrest
    match qs.2 with
    | [] => some ⟨scheme, host, port, path, some qs.1, none⟩
    | '#' :: f => some ⟨scheme, host, port, path, some qs.1, some f⟩
    | _ => none
  | '#' :: f => some ⟨scheme, host, port, path, none, some f⟩
  | _ => none

/-- Model of `new URL(input)` (hierarchical http(s)-style grammar); yields
`none` where the platform constructor throws. -/
def parseUrl (s : List Char) : Option UrlRec :=
  let sc := scanUntil [':'] s
  match sc.2 with
  | ':' :: '/' :: '/' :: rest2 =>
    let scheme := sc.1.map Char.toLower
    if scheme = [] ∨ ¬ (scheme.all isSchemeChar) then none
    else
      let hp := scanUntil ['/', '?', '#'] rest2
      let hsplit := scanUntil [':'] hp.1
      let host := hsplit.1.map Char.toLower
      if host = [] then none
      else
        match hsplit.2 with
        | [] => parseAfterHost scheme host [] hp.2
        | ':' :: p => if p.all Char.isDigit then parseAfterHost scheme host p hp.2 else none
        | _ => none
  | _ => none

/-- Serialized query component (empty, or `?` followed by the query). -/
def qPart : Option (List Char) → List Char
  | none => []
  | some q => '?' :: q

/-- Serialized fragment component (empty, or `#` followed by the fragment). -/
def fragPart : Option (List Char) → List Char
  | none => []
  | some f => '#' :: f

/-- Model of `url.href`: the serializer of the URL record. -/
def serializeUrl (r : UrlRec) : List Char :=
  r.scheme ++ ':' :: '/' :: '/' ::
    (r.host ++ (if r.port = [] then [] else ':' :: r.port) ++ r.path
      ++ qPart r.query ++ fragPart r.frag)

/-- Well-formedness of a URL record: exactly the shape invariants enjoyed by
every record the parser produces.  They make serialization unambiguous. -/
structure UrlWF (r : UrlRec) : Prop where
  scheme_ne : r.scheme ≠ []
  scheme_chars : r.scheme.all isSchemeChar = true
  scheme_low : r.scheme.map Char.toLower = r.scheme
  host_ne : r.host ≠ []
  host_chars : ∀ c ∈ r.host, c ≠ ':' ∧ c ≠ '/' ∧ c ≠ '?' ∧ c ≠ '#'
  host_low : r.host.map Char.toLower = r.host
  port_digits : r.port.all Char.isDigit = true
  port_nondefault : defaultPortDrop r.scheme r.port = r.port
  path_head : ∃ t, r.path = '/' :: t
  path_chars : ∀ c ∈ r.path, c ≠ '?' ∧ c ≠ '#'
  query_chars : ∀ q, r.query = some q → ∀ c ∈ q, c ≠ '#'

theorem scanUntil_snd_shape (delims : List Char) (l : List Char) :
    (scanUntil delims l).2 = [] ∨ ∃ d t, d ∈ delims ∧ (scanUntil delims l).2 = d :: t := by
  induction l with
  | nil => left; simp [scanUntil]
  | cons c rest ih =>
    by_cases h : c ∈ delims
    · right; exact ⟨c, rest, h, by simp [scanUntil, h]⟩
    · simpa [scanUntil, h] using ih

theorem defaultPortDrop_nil (scheme : List Char) : defaultPortDrop scheme [] = [] := by
  unfold defaultPortDrop
  rw [if_neg]
  rintro (⟨-, h⟩ | ⟨-, h⟩) <;> exact absurd h.symm (by decide)

theorem defaultPortDrop_idem (scheme port : List Char) :
    defaultPortDrop scheme (defaultPortDrop scheme port) = defaultPortDrop scheme port := by
  by_cases h : (scheme = "http".data ∧ port = "80".data) ∨ (scheme = "https".data ∧ port = "443".data)
  · have h1 : defaultPortDrop scheme port = [] := by unfold defaultPortDrop; rw [if_pos h]
    rw [h1, defaultPortDrop_nil]
  · have h1 : defaultPortDrop scheme port = port := by unfold defaultPortDrop; rw [if_neg h]
    rw [h1, h1]

theorem defaultPortDrop_digits (scheme port : List Char) (h : port.all Char.isDigit = true) :
    (defaultPortDrop scheme port).all Char.isDigit = true := by
  unfold defaultPortDrop
  split
  · rfl
  · exact h

theorem isSchemeChar_ne_colon (c : Char) (h : isSchemeChar c = true) : c ≠ ':' := by
  intro hc; subst hc; simp [isSchemeChar] at h


theorem parseAfterHost_spec (scheme host port0 path : List Char) (q f : Option (List Char))
    (hne : path ≠ [])
    (hpath : ∀ c ∈ path, c ≠ '?' ∧ c ≠ '#')
    (hq : ∀ x, q = some x → ∀ c ∈ x, c ≠ '#') :
    parseAfterHost scheme host port0 (path ++ (qPart q ++ fragPart f))
    = some ⟨scheme, host, defaultPortDrop scheme port0, path, q, f⟩ := by
  have hpd : ∀ c ∈ path, c ∉ (['?', '#'] : List Char) := by
    intro c hc
    have := hpath c hc
    simp [this.1, this.2]
  cases q with
  | none =>
    cases f with
    | none =>
      have h1 : scanUntil ['?', '#'] (path ++ (qPart none ++ fragPart (none : Option (List Char))))
          = (path, []) := by
        simpa [qPart, fragPart] using scanUntil_no_delim ['?', '#'] path hpd
      simp only [parseAfterHost, h1]
      simp [hne]
    | some y =>
      have h1 : scanUntil ['?', '#'] (path ++ (qPart none ++ fragPart (some y)))
          = (path, '#' :: y) := by
        simpa [qPart, fragPart] using scanUntil_stops ['?', '#'] path '#' y hpd (by simp)
      simp only [parseAfterHost, h1]
      simp [hne]
  | some x =>
    have hx : ∀ c ∈ x, c ∉ (['#'] : List Char) := by
      intro c hc
      have := hq x rfl c hc
      simp [this]
    cases f with
    | none =>
      have h1 : scanUntil ['?', '#'] (path ++ (qPart (some x) ++ fragPart (none : Option (List Char))))
          = (path, '?' :: x) := by
        have := scanUntil_stops ['?', '#'] path '?' x hpd (by simp)
        simpa [qPart, fragPart] using this
      have h2 : scanUntil ['#'] x = (x, []) := scanUntil_no_delim ['#'] x hx
      simp only [parseAfterHost, h1, h2]
      simp [hne]
    | some y =>
      have h1 : scanUntil ['?', '#'] (path ++ (qPart (some x) ++ fragPart (some y)))
          = (path, '?' :: (x ++ '#' :: y)) := by
        have := scanUntil_stops ['?', '#'] path '?' (x ++ '#' :: y) hpd (by simp)
        simpa [qPart, fragPart, List.append_assoc] using this
      have h2 : scanUntil ['#'] (x ++ '#' :: y) = (x, '#' :: y) :=
        scanUntil_stops ['#'] x '#' y hx (by simp)
      simp only [parseAfterHost, h1, h2]
      simp [hne]

theorem parseUrl_serializeUrl (r : UrlRec) (h : UrlWF r) : parseUrl (serializeUrl r) = some r := by
  obtain ⟨t, hpath⟩ := h.path_head
  have hschemeColon : ∀ c ∈ r.scheme, c ∉ ([':'] : List Char) := by
    intro c hc
    have hall := h.scheme_chars
    rw [List.all_eq_true] at hall
    have := isSchemeChar_ne_colon c (by simpa using hall c hc)
    simp [this]
  have hhostD : ∀ c ∈ r.host, c ∉ (['/', '?', '#'] : List Char) := by
    intro c hc
    have := h.host_chars c hc
    simp [this.2.1, this.2.2.1, this.2.2.2]
  have hhostColon : ∀ c ∈ r.host, c ∉ ([':'] : List Char) := by
    intro c hc
    have := h.host_chars c hc
    simp [this.1]
  have hpne : r.path ≠ [] := by rw [hpath]; simp
  have harg : r.path ++ (qPart r.query ++ fragPart r.frag)
      = '/' :: (t ++ (qPart r.query ++ fragPart r.frag)) := by
    rw [hpath]; rfl
  have h3 : scanUntil [':'] r.host = (r.host, []) := scanUntil_no_delim _ _ hhostColon
  by_cases hp0 : r.port = []
  · have hbody : serializeUrl r
        = r.scheme ++ ':' :: '/' :: '/' ::
            (r.host ++ '/' :: (t ++ (qPart r.query ++ fragPart r.frag))) := by
      simp [serializeUrl, hp0, hpath, List.append_assoc]
    have h1 : scanUntil [':'] (serializeUrl r)
        = (r.scheme, ':' :: '/' :: '/' ::
            (r.host ++ '/' :: (t ++ (qPart r.query ++ fragPart r.frag)))) := by
      rw [hbody]; exact scanUntil_stops _ _ _ _ hschemeColon (by simp)
    have h2 : scanUntil ['/', '?', '#'] (r.host ++ '/' :: (t ++ (qPart r.query ++ fragPart r.frag)))
        = (r.host, '/' :: (t ++ (qPart r.query ++ fragPart r.frag))) :=
      scanUntil_stops _ _ _ _ hhostD (by simp)
    have h4 : parseAfterHost r.scheme r.host [] ('/' :: (t ++ (qPart r.query ++ fragPart r.frag)))
        = some ⟨r.scheme, r.host, [], r.path, r.query, r.frag⟩ := by
      have hs := parseAfterHost_spec r.scheme r.host [] r.path r.query r.frag hpne h.path_chars h.query_chars
      rw [harg, defaultPortDrop_nil] at hs
      exact hs
    have hrec : (⟨r.scheme, r.host, [], r.path, r.query, r.frag⟩ : UrlRec) = r := by
      have heta : (⟨r.scheme, r.host, r.port, r.path, r.query, r.frag⟩ : UrlRec) = r := rfl
      rw [← heta, hp0]
    simp only [parseUrl, h1, h.scheme_low]
    rw [if_neg (by simp [h.scheme_ne, h.scheme_chars])]
    simp only [h2, h3, h.host_low]
    rw [if_neg h.host_ne]
    rw [h4, hrec]
  · have hportD : ∀ c ∈ r.port, c ∉ (['/', '?', '#'] : List Char) := by
      intro c hc
      have hall := h.port_digits
      rw [List.all_eq_true] at hall
      have := isDigit_ne_delims c (by simpa using hall c hc)
      simp [this.1, this.2.1, this.2.2.1]
    have hbody : serializeUrl r
        = r.scheme ++ ':' :: '/' :: '/' ::
            ((r.host ++ ':' :: r.port) ++ '/' :: (t ++ (qPart r.query ++ fragPart r.frag))) := by
      simp [serializeUrl, hp0, hpath, List.append_assoc]
    have h1 : scanUntil [':'] (serializeUrl r)
        = (r.scheme, ':' :: '/' :: '/' ::
            ((r.host ++ ':' :: r.port) ++ '/' :: (t ++ (qPart r.query ++ fragPart r.frag)))) := by
      rw [hbody]; exact scanUntil_stops _ _ _ _ hschemeColon (by simp)
    have hpreD : ∀ c ∈ r.host ++ ':' :: r.port, c ∉ (['/', '?', '#'] : List Char) := by
      intro c hc
      rcases List.mem_append.mp hc with h1 | h1
      · exact hhostD c h1
      · rcases List.mem_cons.mp h1 with h2 | h2
        · subst h2; simp
        · exact hportD c h2
    have h2 : scanUntil ['/', '?', '#']
        ((r.host ++ ':' :: r.port) ++ '/' :: (t ++ (qPart r.query ++ fragPart r.frag)))
        = ((r.host ++ ':' :: r.port), '/' :: (t ++ (qPart r.query ++ fragPart r.frag))) :=
      scanUntil_stops _ _ _ _ hpreD (by simp)
    have h3' : scanUntil [':'] (r.host ++ ':' :: r.port) = (r.host, ':' :: r.port) :=
      scanUntil_stops _ _ _ _ hhostColon (by simp)
    have h4 : parseAfterHost r.scheme r.host r.port ('/' :: (t ++ (qPart r.query ++ fragPart r.frag)))
        = some ⟨r.scheme, r.host, r.port, r.path, r.query, r.frag⟩ := by
      have hs := parseAfterHost_spec r.scheme r.host r.port r.path r.query r.frag hpne h.path_chars h.query_chars
      rw [harg, h.port_nondefault] at hs
      exact hs
    simp only [parseUrl, h1, h.scheme_low]
    rw [if_neg (by simp [h.scheme_ne, h.scheme_chars])]
    simp only [h2, h3', h.host_low]
    rw [if_neg h.host_ne]
    simp only [h.port_digits, ite_true]
    rw [h4]

theorem parseAfterHost_wf (scheme host port0 rest : List Char) (r : UrlRec)
    (hscheme_ne : scheme ≠ []) (hscheme_chars : scheme.all isSchemeChar = true)
    (hscheme_low : scheme.map Char.toLower = scheme)
    (hhost_ne : host ≠ [])
    (hhost_chars : ∀ c ∈ host, c ≠ ':' ∧ c ≠ '/' ∧ c ≠ '?' ∧ c ≠ '#')
    (hhost_low : host.map Char.toLower = host)
    (hport : port0.all Char.isDigit = true)
    (hrest : rest = [] ∨ ∃ d tl, d ∈ (['/', '?', '#'] : List Char) ∧ rest = d :: tl)
    (hp : parseAfterHost scheme host port0 rest = some r) : UrlWF r := by
  have hps1 : ∀ c ∈ (scanUntil ['?', '#'] rest).1, c ≠ '?' ∧ c ≠ '#' := by
    intro c hc
    have := scanUntil_fst_no_delim ['?', '#'] rest c hc
    simp at this
    exact this
  have hpath_shape : (scanUntil ['?', '#'] rest).1 = []
      ∨ ∃ t2, (scanUntil ['?', '#'] rest).1 = '/' :: t2 := by
    rcases hrest with h0 | ⟨d, tl, hd, h0⟩
    · left; rw [h0]; rfl
    · have hdc : d = '/' ∨ d = '?' ∨ d = '#' := by simpa using hd
      rcases hdc with h1 | h1 | h1
      · right
        subst h1
        rw [h0]
        exact ⟨(scanUntil ['?', '#'] tl).1, by simp [scanUntil]⟩
      · left; subst h1; rw [h0]; simp [scanUntil]
      · left; subst h1; rw [h0]; simp [scanUntil]
  have hpathv_head : ∃ t, (if (scanUntil ['?', '#'] rest).1 = []
        then ['/'] else (scanUntil ['?', '#'] rest).1) = '/' :: t := by
    rcases hpath_shape with h0 | ⟨t2, h0⟩
    · rw [h0]; exact ⟨[], rfl⟩
    · rw [h0]; exact ⟨t2, by simp⟩
  have hpathv_chars : ∀ c ∈ (if (scanUntil ['?', '#'] rest).1 = []
        then ['/'] else (scanUntil ['?', '#'] rest).1), c ≠ '?' ∧ c ≠ '#' := by
    intro c hc
    by_cases h0 : (scanUntil ['?', '#'] rest).1 = []
    · rw [if_pos h0] at hc
      simp at hc
      subst hc
      exact ⟨by decide, by decide⟩
    · rw [if_neg h0] at hc
      exact hps1 c hc
  simp only [parseAfterHost] at hp
  split at hp
  · have hr := Option.some.inj hp
    subst hr
    exact ⟨hscheme_ne, hscheme_chars, hscheme_low, hhost_ne, hhost_chars, hhost_low,
      defaultPortDrop_digits _ _ hport, defaultPortDrop_idem _ _,
      hpathv_head, hpathv_chars, by intro q hq; simp at hq⟩
  · rename_i qrest heq
    split at hp
    · have hr := Option.some.inj hp
      subst hr
      refine ⟨hscheme_ne, hscheme_chars, hscheme_low, hhost_ne, hhost_chars, hhost_low,
        defaultPortDrop_digits _ _ hport, defaultPortDrop_idem _ _,
        hpathv_head, hpathv_chars, ?_⟩
      intro q hq
      have hq' := Option.some.inj hq
      subst hq'
      intro c hc
      have := scanUntil_fst_no_delim ['#'] qrest c hc
      simpa using this
    · rename_i f heq2
      have hr := Option.some.inj hp
      subst hr
      refine ⟨hscheme_ne, hscheme_chars, hscheme_low, hhost_ne, hhost_chars, hhost_low,
        defaultPortDrop_digits _ _ hport, defaultPortDrop_idem _ _,
        hpathv_head, hpathv_chars, ?_⟩
      intro q hq
      have hq' := Option.some.inj hq
      subst hq'
      intro c hc
      have := scanUntil_fst_no_delim ['#'] qrest c hc
      simpa using this
    · simp at hp
  · rename_i f heq
    have hr := Option.some.inj hp
    subst hr
    exact ⟨hscheme_ne, hscheme_chars, hscheme_low, hhost_ne, hhost_chars, hhost_low,
      defaultPortDrop_digits _ _ hport, defaultPortDrop_idem _ _,
      hpathv_head, hpathv_chars, by intro q hq; simp at hq⟩
  · simp at hp

theorem parseUrl_wf (s : List Char) (r : UrlRec) (hp : parseUrl s = some r) : UrlWF r := by
  simp only [parseUrl] at hp
  split at hp
  · rename_i rest2 heq
    split at hp
    · simp at hp
    · rename_i hcond
      push_neg at hcond
      obtain ⟨hsne, hsall⟩ := hcond
      split at hp
      · simp at hp
      · rename_i hhne
        have hhost_chars : ∀ c ∈ (scanUntil [':'] (scanUntil ['/', '?', '#'] rest2).1).1.map Char.toLower,
            c ≠ ':' ∧ c ≠ '/' ∧ c ≠ '?' ∧ c ≠ '#' := by
          intro c hc
          obtain ⟨c0, hc0, hcl⟩ := List.mem_map.mp hc
          have hnc : c0 ∉ ([':'] : List Char) :=
            scanUntil_fst_no_delim [':'] _ c0 hc0
          have hmem : c0 ∈ (scanUntil ['/', '?', '#'] rest2).1 :=
            scanUntil_mem_fst [':'] _ c0 hc0
          have hnd : c0 ∉ (['/', '?', '#'] : List Char) :=
            scanUntil_fst_no_delim ['/', '?', '#'] _ c0 hmem
          simp only [List.mem_cons, List.mem_singleton, not_or] at hnc hnd
          subst hcl
          refine ⟨toLower_ne_low c0 ':' (by decide) hnc.1,
            toLower_ne_low c0 '/' (by decide) hnd.1,
            toLower_ne_low c0 '?' (by decide) hnd.2.1,
            toLower_ne_low c0 '#' (by decide) hnd.2.2.1⟩
        have hrest_shape : (scanUntil ['/', '?', '#'] rest2).2 = []
            ∨ ∃ d tl, d ∈ (['/', '?', '#'] : List Char)
                ∧ (scanUntil ['/', '?', '#'] rest2).2 = d :: tl :=
          scanUntil_snd_shape _ _
        split at hp
        · exact parseAfterHost_wf _ _ _ _ r
            (by simpa using hsne) (by simpa using hsall) (map_toLower_idem _)
            hhne hhost_chars (map_toLower_idem _) (by rfl) hrest_shape hp
        · rename_i p heq2
          split at hp
          · rename_i hdig
            exact parseAfterHost_wf _ _ _ _ r
              (by simpa using hsne) (by simpa using hsall) (map_toLower_idem _)
              hhne hhost_chars (map_toLower_idem _) hdig hrest_shape hp
          · simp at hp
        · simp at hp
  · simp at hp

/-! ### URLSearchParams model

The normalizer mutates `u.searchParams` (delete tracking keys, then `sort()`).
`qparse`/`qserialize` model the `application/x-www-form-urlencoded` list of
name-value pairs of a query string (percent-encoding aside), `sortPairs`
models the stable by-name sort performed by `URLSearchParams.sort`. -/

/-- The value part of one `name=value` segment: everything after the first
`=`, or empty when there is none. -/
def qvalue : List Char → List Char
  | '=' :: v => v
  | _ => []

def qparse (q : List Char) : List (List Char × List Char) :=
  ((splitOnChar '&' q).filter (fun seg => seg ≠ [])).map
    (fun seg => ((scanUntil ['='] seg).1, qvalue (scanUntil ['='] seg).2))

def qserialize : List (List Char × List Char) → List Char
  | [] => []
  | [p] => p.1 ++ '=' :: p.2
  | p :: q :: rest => p.1 ++ '=' :: p.2 ++ '&' :: qserialize (q :: rest)

/-- Strict by-name order used by the stable sort (code-unit comparison). -/
def ltKey : List Char → List Char → Bool
  | [], [] => false
  | [], _ :: _ => true
  | _ :: _, [] => false
  | a :: as, b :: bs =>
    if a.toNat < b.toNat then true
    else if b.toNat < a.toNat then false
    else ltKey as bs

def insertPair (p : List Char × List Char) :
    List (List Char × List Char) → List (List Char × List Char)
  | [] => [p]
  | q :: qs => if ltKey q.1 p.1 then q :: insertPair p qs else p :: q :: qs

/-- Stable insertion sort by name: an element is inserted before the first
element whose name is not strictly smaller, so equal names keep their
original relative order — as `URLSearchParams.sort` guarantees. -/
def sortPairs : List (List Char × List Char) → List (List Char × List Char)
  | [] => []
  | p :: ps => insertPair p (sortPairs ps)

theorem ltKey_asymm : ∀ a b : List Char, ltKey a b = true → ltKey b a = false := by
  intro a
  induction a with
  | nil =>
    intro b h
    cases b with
    | nil => simp [ltKey] at h
    | cons y ys => simp [ltKey]
  | cons x xs ih =>
    intro b h
    cases b with
    | nil => simp [ltKey] at h
    | cons y ys =>
      simp only [ltKey] at h ⊢
      by_cases h1 : x.toNat < y.toNat
      · rw [if_neg (show ¬ y.toNat < x.toNat by omega), if_pos h1]
      · by_cases h2 : y.toNat < x.toNat
        · rw [if_neg h1, if_pos h2] at h
          exact absurd h (by simp)
        · rw [if_neg h1, if_neg h2] at h
          rw [if_neg h2, if_neg h1]
          exact ih ys h

theorem insertPair_chain (p : List Char × List Char) :
    ∀ l, List.Chain' (fun a b => ltKey b.1 a.1 = false) l →
      List.Chain' (fun a b => ltKey b.1 a.1 = false) (insertPair p l) := by
  intro l
  induction l with
  | nil => intro _; simp [insertPair]
  | cons q qs ih =>
    intro hch
    have hqs : List.Chain' (fun a b => ltKey b.1 a.1 = false) qs := hch.tail
    by_cases h : ltKey q.1 p.1 = true
    · rw [insertPair, if_pos h]
      cases qs with
      | nil =>
        simp only [insertPair]
        exact List.chain'_cons.mpr ⟨ltKey_asymm _ _ h, List.chain'_singleton p⟩
      | cons q' qs' =>
        by_cases h2 : ltKey q'.1 p.1 = true
        · rw [insertPair, if_pos h2]
          refine List.chain'_cons.mpr ⟨?_, ?_⟩
          · exact (List.chain'_cons.mp hch).1
          · have := ih hqs
            rw [insertPair, if_pos h2] at this
            exact this
        · rw [insertPair, if_neg h2]
          refine List.chain'_cons.mpr ⟨ltKey_asymm _ _ h, ?_⟩
          refine List.chain'_cons.mpr ⟨?_, hqs⟩
          simpa using h2
    · rw [insertPair, if_neg h]
      refine List.chain'_cons.mpr ⟨?_, hch⟩
      simpa using h

theorem sortPairs_chain :
    ∀ l, List.Chain' (fun a b : List Char × List Char => ltKey b.1 a.1 = false) (sortPairs l) := by
  intro l
  induction l with
  | nil => simp [sortPairs]
  | cons p ps ih => exact insertPair_chain p _ ih

theorem sortPairs_of_chain :
    ∀ l, List.Chain' (fun a b : List Char × List Char => ltKey b.1 a.1 = false) l →
      sortPairs l = l := by
  intro l
  induction l with
  | nil => intro _; rfl
  | cons p ps ih =>
    intro hch
    rw [sortPairs, ih hch.tail]
    cases ps with
    | nil => rfl
    | cons q qs =>
      rw [insertPair, if_neg ?_]
      have := (List.chain'_cons.mp hch).1
      simp [this]

theorem mem_insertPair (p a : List Char × List Char) :
    ∀ l, a ∈ insertPair p l → a = p ∨ a ∈ l := by
  intro l
  induction l with
  | nil => intro h; simp [insertPair] at h; exact Or.inl h
  | cons q qs ih =>
    intro h
    by_cases hc : ltKey q.1 p.1 = true
    · rw [insertPair, if_pos hc] at h
      rcases List.mem_cons.mp h with h1 | h1
      · exact Or.inr (by simp [h1])
      · rcases ih h1 with h2 | h2
        · exact Or.inl h2
        · exact Or.inr (List.mem_cons_of_mem _ h2)
    · rw [insertPair, if_neg hc] at h
      rcases List.mem_cons.mp h with h1 | h1
      · exact Or.inl h1
      · exact Or.inr h1

theorem mem_sortPairs (a : List Char × List Char) :
    ∀ l, a ∈ sortPairs l → a ∈ l := by
  intro l
  induction l with
  | nil => intro h; simp [sortPairs] at h
  | cons p ps ih =>
    intro h
    rcases mem_insertPair p a _ h with h1 | h1
    · simp [h1]
    · exact List.mem_cons_of_mem _ (ih h1)

theorem splitOnChar_no_d (d : Char) (l : List Char) (h : ∀ c ∈ l, c ≠ d) :
    splitOnChar d l = [l] := by
  induction l with
  | nil => rfl
  | cons c rest ih =>
    have hc : c ≠ d := h c (by simp)
    have hr := ih (fun x hx => h x (by simp [hx]))
    rw [splitOnChar, if_neg hc, hr]

theorem splitOnChar_app (d : Char) (pre rest : List Char) (h : ∀ c ∈ pre, c ≠ d) :
    splitOnChar d (pre ++ d :: rest) = pre :: splitOnChar d rest := by
  induction pre with
  | nil => simp [splitOnChar]
  | cons c p ih =>
    have hc : c ≠ d := h c (by simp)
    have hr := ih (fun x hx => h x (by simp [hx]))
    rw [List.cons_append, splitOnChar, if_neg hc, hr]

theorem splitOnChar_seg_no_d (d : Char) :
    ∀ l : List Char, ∀ seg ∈ splitOnChar d l, d ∉ seg := by
  intro l
  induction l with
  | nil =>
    intro seg hseg
    simp [splitOnChar] at hseg
    simp [hseg]
  | cons c rest ih =>
    intro seg hseg
    by_cases h : c = d
    · rw [splitOnChar, if_pos h] at hseg
      rcases List.mem_cons.mp hseg with h1 | h1
      · simp [h1]
      · exact ih seg h1
    · rw [splitOnChar, if_neg h] at hseg
      cases hs : splitOnChar d rest with
      | nil => exact absurd hs (splitOnChar_ne_nil d rest)
      | cons s ss =>
        rw [hs] at hseg
        rcases List.mem_cons.mp hseg with h1 | h1
        · subst h1
          intro hmem
          rcases List.mem_cons.mp hmem with h2 | h2
          · exact h h2.symm
          · exact ih s (by simp [hs]) h2
        · exact ih seg (by simp [hs, h1])

/-- Well-formedness of one name-value pair: exactly what `qparse` guarantees of
its output, and what makes `qserialize` invertible. -/
def PairWF (p : List Char × List Char) : Prop :=
  '&' ∉ p.1 ∧ '=' ∉ p.1 ∧ '&' ∉ p.2


theorem qvalue_mem (l : List Char) (c : Char) (hc : c ∈ qvalue l) : c ∈ l := by
  unfold qvalue at hc
  split at hc
  · exact List.mem_cons_of_mem _ hc
  · simp at hc

theorem qparse_wf (q : List Char) : ∀ p ∈ qparse q, PairWF p := by
  intro p hp
  unfold qparse at hp
  obtain ⟨seg, hseg, hpe⟩ := List.mem_map.mp hp
  have hseg' : seg ∈ splitOnChar '&' q := (List.mem_filter.mp hseg).1
  have hamp : '&' ∉ seg := splitOnChar_seg_no_d '&' q seg hseg'
  subst hpe
  refine ⟨?_, ?_, ?_⟩
  · intro hc
    exact hamp (scanUntil_mem_fst ['='] seg '&' hc)
  · intro hc
    have := scanUntil_fst_no_delim ['='] seg '=' hc
    simp at this
  · intro hc
    exact hamp (scanUntil_mem_snd ['='] seg '&' (qvalue_mem _ '&' hc))

theorem qparse_mem_chars (q : List Char) :
    ∀ p ∈ qparse q, ∀ c, (c ∈ p.1 ∨ c ∈ p.2) → c ∈ q := by
  intro p hp c hc
  unfold qparse at hp
  obtain ⟨seg, hseg, hpe⟩ := List.mem_map.mp hp
  have hseg' : seg ∈ splitOnChar '&' q := (List.mem_filter.mp hseg).1
  subst hpe
  rcases hc with h1 | h1
  · exact splitOnChar_mem_seg '&' q seg hseg' c (scanUntil_mem_fst ['='] seg c h1)
  · exact splitOnChar_mem_seg '&' q seg hseg' c
      (scanUntil_mem_snd ['='] seg c (qvalue_mem _ c h1))

theorem pair_seg_ne_amp (p : List Char × List Char) (hk1 : '&' ∉ p.1) (hv : '&' ∉ p.2) :
    ∀ c ∈ p.1 ++ '=' :: p.2, c ≠ '&' := by
  intro c hc he
  subst he
  rcases List.mem_append.mp hc with h1 | h1
  · exact hk1 h1
  · rcases List.mem_cons.mp h1 with h2 | h2
    · exact absurd h2 (by decide)
    · exact hv h2

theorem qserialize_roundtrip :
    ∀ ps : List (List Char × List Char), (∀ p ∈ ps, PairWF p) →
      qparse (qserialize ps) = ps := by
  intro ps
  induction ps with
  | nil => intro _; rfl
  | cons p rest ih =>
    intro hwf
    obtain ⟨hk1, hk2, hv⟩ := hwf p (by simp)
    have hscan : scanUntil ['='] (p.1 ++ '=' :: p.2) = (p.1, '=' :: p.2) := by
      refine scanUntil_stops ['='] p.1 '=' p.2 ?_ (by simp)
      intro c hc hmem
      simp at hmem
      subst hmem
      exact hk2 hc
    have hne : (p.1 ++ '=' :: p.2 : List Char) ≠ [] := by simp
    cases rest with
    | nil =>
      have hsplit : splitOnChar '&' (qserialize [p]) = [p.1 ++ '=' :: p.2] := by
        simp only [qserialize]
        exact splitOnChar_no_d '&' _ (pair_seg_ne_amp p hk1 hv)
      unfold qparse
      rw [hsplit, List.filter_cons_of_pos (by simp [hne])]
      simp [hscan, qvalue]
    | cons p2 rest2 =>
      have hser : qserialize (p :: p2 :: rest2)
          = (p.1 ++ '=' :: p.2) ++ '&' :: qserialize (p2 :: rest2) := by
        simp [qserialize, List.append_assoc]
      have hsplit : splitOnChar '&' (qserialize (p :: p2 :: rest2))
          = (p.1 ++ '=' :: p.2) :: splitOnChar '&' (qserialize (p2 :: rest2)) := by
        rw [hser]
        exact splitOnChar_app '&' _ _ (pair_seg_ne_amp p hk1 hv)
      have hrest := ih (fun x hx => hwf x (by simp [hx]))
      unfold qparse at hrest ⊢
      rw [hsplit, List.filter_cons_of_pos (by simp [hne]), List.map_cons, hrest]
      simp [hscan, qvalue]

/-! ### The URL normalizer (`normalizeUrl` of `src/core/UrlUtils.ts`) -/

/-- JS `String.prototype.startsWith`, character-list level. -/
def startsWithL : List Char → List Char → Bool
  | [], _ => true
  | _ :: _, [] => false
  | a :: as, b :: bs => a == b && startsWithL as bs

/-- JS `String.prototype.includes`, character-list level. -/
def containsL (sub : List Char) : List Char → Bool
  | [] => startsWithL sub []
  | c :: rest => startsWithL sub (c :: rest) || containsL sub rest

/-- The fixed `TRACKING_PARAMS` patterns of `UrlUtils.ts`: a case-insensitive
`utm_` leading-run pattern plus six case-insensitive exact names. -/
def isTrackingParam (k : List Char) : Bool :=
  let lk := k.map Char.toLower
  startsWithL "utm_".data lk
    || lk == "fbclid".data || lk == "gclid".data || lk == "dclid".data
    || lk == "msclkid".data || lk == "mc_cid".data || lk == "mc_eid".data

/-- Effect of the normalizer's query handling: delete tracking parameters and
apply `URLSearchParams.sort` (which re-serializes the pair list, and sets the
query to null when the list is empty). -/
def normalizeQuery (q : List Char) : Option (List Char) :=
  let ps := sortPairs ((qparse q).filter (fun p => !(isTrackingParam p.1)))
  if ps = [] then none else some (qserialize ps)

/-- `normalizeQuery` lifted to the (possibly absent) query component. -/
def normalizeQueryOpt : Option (List Char) → Option (List Char)
  | none => none
  | some q => normalizeQuery q

/-- The normalization rules of `normalizeUrl` (all options at their defaults)
acting on the parsed URL record: lowercase hostname, strip fragment, drop
default ports, delete tracking query parameters and sort the remainder, and
strip a single trailing slash from a multi-segment path. -/
def normalizeRec (r : UrlRec) : UrlRec :=
  { scheme := r.scheme
    host := r.host.map Char.toLower
    port := defaultPortDrop r.scheme r.port
    path := if 1 < r.path.length ∧ r.path.getLast? = some '/' then r.path.dropLast else r.path
    query := normalizeQueryOpt r.query
    frag := none }

/-- `normalizeUrl` of `src/core/UrlUtils.ts` (default options): parse, apply
the normalization rules, serialize.  `none` models the `InvalidUrlError`
throw of the source on unparsable input. -/
def normalizeUrl (s : String) : Option String :=
  (parseUrl s.data).map (fun r => String.mk (serializeUrl (normalizeRec r)))

/-- `AgentCrawl.normalizeUrlForDedupe`: `normalizeUrl`, with a catch-all
fallback that returns the raw input truncated at the first `#`
(`input.split('#')[0]`). -/
def normalizeUrlForDedupe (input : String) : String :=
  (normalizeUrl input).getD (String.mk ((splitOnChar '#' input.data).headD []))

/-- Does the path end in a double slash?  The single shape on which the
single-trailing-slash rule is not idempotent. -/
def endsTwoSlash (p : List Char) : Bool :=
  match p.reverse with
  | '/' :: '/' :: _ => true
  | _ => false

theorem getLast?_decomp (l : List Char) (a : Char) (h : l.getLast? = some a) :
    ∃ pre, l = pre ++ [a] := by
  rw [List.getLast?_eq_head?_reverse] at h
  cases hr : l.reverse with
  | nil => rw [hr] at h; simp at h
  | cons x t =>
    rw [hr] at h
    simp at h
    subst h
    refine ⟨t.reverse, ?_⟩
    have := congrArg List.reverse hr
    simpa using this

theorem pathStrip_idem (p : List Char) (h2 : endsTwoSlash p = false) :
    (if 1 < (if 1 < p.length ∧ p.getLast? = some '/' then p.dropLast else p).length ∧
        (if 1 < p.length ∧ p.getLast? = some '/' then p.dropLast else p).getLast? = some '/'
     then (if 1 < p.length ∧ p.getLast? = some '/' then p.dropLast else p).dropLast
     else (if 1 < p.length ∧ p.getLast? = some '/' then p.dropLast else p))
    = (if 1 < p.length ∧ p.getLast? = some '/' then p.dropLast else p) := by
  by_cases hc : 1 < p.length ∧ p.getLast? = some '/'
  · rw [if_pos hc]
    obtain ⟨hlen, hlast⟩ := hc
    obtain ⟨pre, hp⟩ := getLast?_decomp p '/' hlast
    subst hp
    rw [List.dropLast_concat]
    have hlast_pre : pre.getLast? ≠ some '/' := by
      intro hl
      obtain ⟨pre2, hp2⟩ := getLast?_decomp pre '/' hl
      subst hp2
      simp [endsTwoSlash, List.reverse_append] at h2
    rw [if_neg (fun hh => hlast_pre hh.2)]
  · rw [if_neg hc, if_neg hc]

theorem normalizeQuery_wf_pairs (q : List Char) :
    ∀ p ∈ sortPairs ((qparse q).filter (fun p => !(isTrackingParam p.1))), PairWF p := by
  intro p hp
  exact qparse_wf q p (List.mem_filter.mp (mem_sortPairs p _ hp)).1

theorem normalizeQuery_idem (q q' : List Char) (h : normalizeQuery q = some q') :
    normalizeQuery q' = some q' := by
  unfold normalizeQuery at h
  by_cases hps : sortPairs ((qparse q).filter (fun p => !(isTrackingParam p.1))) = []
  · rw [if_pos hps] at h
    exact absurd h (by simp)
  · rw [if_neg hps] at h
    have hq' := Option.some.inj h
    have hwf : ∀ p ∈ sortPairs ((qparse q).filter (fun p => !(isTrackingParam p.1))), PairWF p :=
      normalizeQuery_wf_pairs q
    have hrt : qparse q' = sortPairs ((qparse q).filter (fun p => !(isTrackingParam p.1))) := by
      rw [← hq']
      exact qserialize_roundtrip _ hwf
    have hfilt : (sortPairs ((qparse q).filter (fun p => !(isTrackingParam p.1)))).filter
        (fun p => !(isTrackingParam p.1))
        = sortPairs ((qparse q).filter (fun p => !(isTrackingParam p.1))) := by
      rw [List.filter_eq_self]
      intro a ha
      exact (List.mem_filter.mp (mem_sortPairs a _ ha)).2
    have hsort : sortPairs (sortPairs ((qparse q).filter (fun p => !(isTrackingParam p.1))))
        = sortPairs ((qparse q).filter (fun p => !(isTrackingParam p.1))) :=
      sortPairs_of_chain _ (sortPairs_chain _)
    unfold normalizeQuery
    rw [hrt, hfilt, hsort, if_neg hps, hq']

theorem qserialize_chars (ps : List (List Char × List Char)) (c : Char) :
    c ∈ qserialize ps → c = '=' ∨ c = '&' ∨ ∃ p ∈ ps, c ∈ p.1 ∨ c ∈ p.2 := by
  induction ps with
  | nil => intro hc; simp [qserialize] at hc
  | cons p rest ih =>
    intro hc
    cases rest with
    | nil =>
      simp only [qserialize] at hc
      rcases List.mem_append.mp hc with h1 | h1
      · exact Or.inr (Or.inr ⟨p, by simp, Or.inl h1⟩)
      · rcases List.mem_cons.mp h1 with h2 | h2
        · exact Or.inl h2
        · exact Or.inr (Or.inr ⟨p, by simp, Or.inr h2⟩)
    | cons p2 rest2 =>
      simp only [qserialize] at hc
      rcases List.mem_append.mp hc with h1 | h1
      · rcases List.mem_append.mp h1 with h2 | h2
        · exact Or.inr (Or.inr ⟨p, by simp, Or.inl h2⟩)
        · rcases List.mem_cons.mp h2 with h3 | h3
          · exact Or.inl h3
          · exact Or.inr (Or.inr ⟨p, by simp, Or.inr h3⟩)
      · rcases List.mem_cons.mp h1 with h2 | h2
        · exact Or.inr (Or.inl h2)
        · rcases ih h2 with h5 | h5 | ⟨pp, hpp, hm⟩
          · exact Or.inl h5
          · exact Or.inr (Or.inl h5)
          · exact Or.inr (Or.inr ⟨pp, by simp [hpp], hm⟩)

theorem normalizeRec_wf (r : UrlRec) (h : UrlWF r) : UrlWF (normalizeRec r) := by
  obtain ⟨t, hpath⟩ := h.path_head
  refine ⟨h.scheme_ne, h.scheme_chars, h.scheme_low, ?_, ?_, ?_, ?_, ?_, ?_, ?_, ?_⟩
  · intro h0
    exact h.host_ne (List.map_eq_nil_iff.mp h0)
  · intro c hc
    obtain ⟨c0, hc0, hcl⟩ := List.mem_map.mp hc
    have hh := h.host_chars c0 hc0
    subst hcl
    exact ⟨toLower_ne_low c0 ':' (by decide) hh.1, toLower_ne_low c0 '/' (by decide) hh.2.1,
      toLower_ne_low c0 '?' (by decide) hh.2.2.1, toLower_ne_low c0 '#' (by decide) hh.2.2.2⟩
  · exact map_toLower_idem _
  · exact defaultPortDrop_digits _ _ h.port_digits
  · exact defaultPortDrop_idem _ _
  · show ∃ t', (if 1 < r.path.length ∧ r.path.getLast? = some '/'
        then r.path.dropLast else r.path) = '/' :: t'
    by_cases hc : 1 < r.path.length ∧ r.path.getLast? = some '/'
    · rw [if_pos hc]
      obtain ⟨hlen, hlast⟩ := hc
      rw [hpath] at hlen ⊢
      cases t with
      | nil => simp at hlen
      | cons a as => exact ⟨(a :: as).dropLast, rfl⟩
    · rw [if_neg hc]
      exact ⟨t, hpath⟩
  · intro c hc2
    show c ≠ '?' ∧ c ≠ '#'
    by_cases hcond : 1 < r.path.length ∧ r.path.getLast? = some '/'
    · rw [show (normalizeRec r).path = (if 1 < r.path.length ∧ r.path.getLast? = some '/'
          then r.path.dropLast else r.path) from rfl, if_pos hcond] at hc2
      exact h.path_chars c (List.dropLast_subset _ hc2)
    · rw [show (normalizeRec r).path = (if 1 < r.path.length ∧ r.path.getLast? = some '/'
          then r.path.dropLast else r.path) from rfl, if_neg hcond] at hc2
      exact h.path_chars c hc2
  · intro q hq c hcq
    cases hrq : r.query with
    | none =>
      rw [show (normalizeRec r).query = normalizeQueryOpt r.query from rfl, hrq] at hq
      simp [normalizeQueryOpt] at hq
    | some q0 =>
      rw [show (normalizeRec r).query = normalizeQueryOpt r.query from rfl, hrq] at hq
      have hq2 : normalizeQuery q0 = some q := hq
      unfold normalizeQuery at hq2
      by_cases hps : sortPairs ((qparse q0).filter (fun p => !(isTrackingParam p.1))) = []
      · rw [if_pos hps] at hq2
        simp at hq2
      · rw [if_neg hps] at hq2
        have hqe := Option.some.inj hq2
        rw [← hqe] at hcq
        rcases qserialize_chars _ c hcq with h1 | h1 | ⟨p, hp, hm⟩
        · subst h1; decide
        · subst h1; decide
        · have hpq : p ∈ qparse q0 := (List.mem_filter.mp (mem_sortPairs p _ hp)).1
          exact h.query_chars q0 hrq c (qparse_mem_chars q0 p hpq c hm)

theorem normalizeQueryOpt_idem (o : Option (List Char)) :
    normalizeQueryOpt (normalizeQueryOpt o) = normalizeQueryOpt o := by
  cases o with
  | none => rfl
  | some q0 =>
    show normalizeQueryOpt (normalizeQuery q0) = normalizeQuery q0
    cases hnq : normalizeQuery q0 with
    | none => rfl
    | some q' => exact normalizeQuery_idem q0 q' hnq

theorem normalizeRec_idem (r : UrlRec) (h2 : endsTwoSlash r.path = false) :
    normalizeRec (normalizeRec r) = normalizeRec r := by
  unfold normalizeRec
  simp only [UrlRec.mk.injEq]
  exact ⟨trivial, map_toLower_idem _, defaultPortDrop_idem _ _, pathStrip_idem r.path h2,
    normalizeQueryOpt_idem _, trivial⟩

/-- C9 counterexample: normalization is not idempotent on the valid URL
`https://h/a//`.  The trailing-slash rule strips a single slash per pass,
so a first pass yields `https://h/a/` and a second pass strips again. -/
theorem normalizeUrl_not_idempotent_cex :
    normalizeUrl "https://h/a//" = some "https://h/a/"
    ∧ normalizeUrl "https://h/a/" = some "https://h/a"
    ∧ ("https://h/a/" : String) ≠ "https://h/a" :=
  ⟨by decide, by decide, by decide⟩

/-- C9 (amended): URL normalization is idempotent on every parsable URL whose
path does not end in a double slash: whenever `normalizeUrl u = some v`,
also `normalizeUrl v = some v`. -/
theorem normalizeUrl_idem (s v : String) (r : UrlRec)
    (hp : parseUrl s.data = some r)
    (h2 : endsTwoSlash r.path = false)
    (hn : normalizeUrl s = some v) : normalizeUrl v = some v := by
  have hwf : UrlWF r := parseUrl_wf s.data r hp
  have hv : v = String.mk (serializeUrl (normalizeRec r)) := by
    unfold normalizeUrl at hn
    rw [hp] at hn
    simp at hn
    exact hn.symm
  have hvdata : v.data = serializeUrl (normalizeRec r) := by rw [hv]
  have hparse : parseUrl v.data = some (normalizeRec r) := by
    rw [hvdata]
    exact parseUrl_serializeUrl _ (normalizeRec_wf r hwf)
  unfold normalizeUrl
  rw [hparse]
  simp only [Option.map_some']
  rw [normalizeRec_idem r h2, ← hv]

/-- Witness for the amended C9 theorem at a concrete input (`HTTP://H/a/`,
which exercises scheme/host lowercasing and the trailing-slash strip). -/
theorem normalizeUrl_idem_witness : normalizeUrl "http://h/a" = some "http://h/a" :=
  normalizeUrl_idem "HTTP://H/a/" "http://h/a"
    ⟨"http".data, "h".data, [], "/a/".data, none, none⟩
    (by decide) (by decide) (by decide)

/-- C10: the crawl's canonicalization helper is total — on inputs the URL
parser rejects (where `normalizeUrl` throws in the source) it falls back to
the raw string truncated at the first `#`, so the fallback carries no
fragment and a malformed href can never abort the crawl. -/
theorem normalizeUrlForDedupe_total (s : String) :
    (∀ v, normalizeUrl s = some v → normalizeUrlForDedupe s = v)
    ∧ (normalizeUrl s = none →
        normalizeUrlForDedupe s = String.mk (s.data.takeWhile (fun c => c ≠ '#'))
        ∧ '#' ∉ (normalizeUrlForDedupe s).data) := by
  constructor
  · intro v hv
    unfold normalizeUrlForDedupe
    rw [hv]
    rfl
  · intro hn
    have hF : normalizeUrlForDedupe s = String.mk (s.data.takeWhile (fun c => c ≠ '#')) := by
      unfold normalizeUrlForDedupe
      rw [hn, Option.getD_none, splitOnChar_head]
    refine ⟨hF, ?_⟩
    rw [hF]
    intro hmem
    have := List.mem_takeWhile_imp (p := fun c => c ≠ '#') (by simpa using hmem)
    simp at this

/-- Witness for the C10 theorem at a concrete unparsable input. -/
theorem normalizeUrlForDedupe_total_witness :
    normalizeUrlForDedupe "not a url#frag" = String.mk ("not a url#frag".data.takeWhile (fun c => c ≠ '#'))
    ∧ '#' ∉ (normalizeUrlForDedupe "not a url#frag").data :=
  (normalizeUrlForDedupe_total "not a url#frag").2 (by decide)

/-! ### Robots policy (`src/core/Robots.ts`) -/

structure RobotsRuleSet where
  disallow : List (List Char)
  allow : List (List Char)
  crawlDelayMs : Option Nat
deriving DecidableEq, Repr

structure RobotsTxt where
  origin : List Char
  rules : RobotsRuleSet
deriving DecidableEq, Repr

/-- One section of a robots.txt document while grouping directives. -/
structure RobotsSection where
  agents : List (List Char)
  disallow : List (List Char)
  allow : List (List Char)
  crawlDelaySec : Option Nat
deriving DecidableEq, Repr

/-- ASCII whitespace recognized by JS `String.prototype.trim`. -/
def isSpaceChar (c : Char) : Bool :=
  c == ' ' || c == '\t' || c == '\n' || c == '\r' || c == '\x0b' || c == '\x0c'

def trimChars (l : List Char) : List Char :=
  ((l.dropWhile isSpaceChar).reverse.dropWhile isSpaceChar).reverse

/-- Split on `\r?\n` as the source's line split does. -/
def splitLines : List Char → List (List Char)
  | [] => [[]]
  | '\r' :: '\n' :: rest => [] :: splitLines rest
  | '\n' :: rest => [] :: splitLines rest
  | c :: rest =>
    match splitLines rest with
    | [] => [[c]]
    | seg :: segs => (c :: seg) :: segs

/-- The `Number(value)` check on a crawl-delay line, modelled for nonnegative
decimal integers (no claim depends on fractional delays). -/
def parseNatDigits (l : List Char) : Option Nat :=
  if l = [] ∨ ¬ (l.all Char.isDigit) then none
  else some (l.foldl (fun acc c => acc * 10 + (c.toNat - 48)) 0)

/-- Line preprocessing: split lines, truncate each at the first `#`
(the `replace(/#.*/, '')` of the source), trim, and drop empties. -/
def robotsLines (content : List Char) : List (List Char) :=
  ((splitLines content).map (fun l => trimChars (l.takeWhile (fun c => c ≠ '#')))).filter
    (fun l => l ≠ [])

/-- Split a directive line at the first `:` into a lowercased trimmed key and
a trimmed value; lines with no `:` are skipped by the caller. -/
def parseDirective (line : List Char) : Option (List Char × List Char) :=
  match scanUntil [':'] line with
  | (k, ':' :: v) => some ((trimChars k).map Char.toLower, trimChars v)
  | _ => none

/-- `matchUserAgent` of the source: an empty header never matches, `*` always
matches, otherwise a case-insensitive substring test of the header inside the
crawler name. -/
def matchUserAgent (header ua : List Char) : Bool :=
  let h := (trimChars header).map Char.toLower
  let u := (trimChars ua).map Char.toLower
  if h = [] then false
  else if h = ['*'] then true
  else containsL h u

/-- The section-grouping loop of `parseRobotsTxt`: `done` holds the sections
already closed, `cur` the section currently receiving directives (the source
keeps it aliased inside the array; here it is appended on close and at the
end). -/
def buildSections : List (List Char) → List RobotsSection → Option RobotsSection → List RobotsSection
  | [], done, cur => done ++ cur.toList
  | line :: rest, done, cur =>
    match parseDirective line with
    | none => buildSections rest done cur
    | some (key, value) =>
      if key = "user-agent".data then
        match cur with
        | none => buildSections rest done (some ⟨[value], [], [], none⟩)
        | some c =>
          if 0 < c.disallow.length + c.allow.length then
            buildSections rest (done ++ [c]) (some ⟨[value], [], [], none⟩)
          else
            buildSections rest done (some { c with agents := c.agents ++ [value] })
      else
        match cur with
        | none => buildSections rest done cur
        | some c =>
          if key = "disallow".data then
            buildSections rest done (some { c with disallow := c.disallow ++ [value] })
          else if key = "allow".data then
            buildSections rest done (some { c with allow := c.allow ++ [value] })
          else if key = "crawl-delay".data then
            match parseNatDigits value with
            | some n => buildSections rest done (some { c with crawlDelaySec := some n })
            | none => buildSections rest done (some c)
          else
            buildSections rest done (some c)

def sectionMatches (ua : List Char) (s : RobotsSection) : Bool :=
  s.agents.any (fun a => matchUserAgent a ua)

def hasNonStarAgent (s : RobotsSection) : Bool :=
  s.agents.any (fun a => !(trimChars a == ['*']))

def hasStarAgent (s : RobotsSection) : Bool :=
  s.agents.any (fun a => trimChars a == ['*'])

/-- Governing-section choice of the source: among matching sections, the
first one containing any non-`*` agent string, else the first one containing
a `*` agent. -/
def selectSection (sections : List RobotsSection) (ua : List Char) : Option RobotsSection :=
  ((sections.filter (sectionMatches ua)).find? hasNonStarAgent).orElse
    (fun _ => (sections.filter (sectionMatches ua)).find? hasStarAgent)

def parseRobotsTxt (origin content ua : List Char) : RobotsTxt :=
  let sections := buildSections (robotsLines content) [] none
  let best := selectSection sections ua
  { origin := origin
    rules :=
      { disallow := (best.map (·.disallow)).getD []
        allow := (best.map (·.allow)).getD []
        crawlDelayMs := (best.bind (·.crawlDelaySec)).map (· * 1000) } }

/-- One rule fold of `pathAllowed`: `some true` in the state means the best
rule so far is an Allow, `some false` a Disallow; `-1` is the initial
best-length sentinel of the source. -/
def robotsBest (isAllow : Bool) (path : List Char) (rules : List (List Char))
    (st : Option Bool × Int) : Option Bool × Int :=
  rules.foldl
    (fun st r =>
      if r = [] then st
      else if ¬ (startsWithL r path = true) then st
      else if st.2 < (r.length : Int) then (some isAllow, (r.length : Int)) else st)
    st

/-- `pathAllowed` of the source: longest allow/disallow matching leading run
wins; the allow rules are scanned first, so a length tie keeps the Allow. -/
def pathAllowed (path : List Char) (rules : RobotsRuleSet) : Bool :=
  let st := robotsBest false path rules.disallow (robotsBest true path rules.allow (none, -1))
  decide (st.1 ≠ some false)

/-- `safeHttpUrl` of `UrlUtils.ts`: parse and require an http(s) scheme. -/
def safeHttpUrlM (url : List Char) : Option UrlRec :=
  match parseUrl url with
  | none => none
  | some u => if u.scheme = "http".data ∨ u.scheme = "https".data then some u else none

/-- WHATWG origin serialization of a URL record (the parser already dropped
default ports). -/
def UrlRec.origin (r : UrlRec) : List Char :=
  r.scheme ++ ':' :: '/' :: '/' :: (r.host ++ (if r.port = [] then [] else ':' :: r.port))

def isAllowedByRobots (url : List Char) (robots : RobotsTxt) : Bool :=
  match safeHttpUrlM url with
  | none => false
  | some u => if u.origin ≠ robots.origin then false else pathAllowed u.path robots.rules

theorem filter_find?_fuse {α : Type} (q p : α → Bool) :
    ∀ l : List α, (l.filter q).find? p = l.find? (fun x => q x && p x) := by
  intro l
  induction l with
  | nil => rfl
  | cons x xs ih =>
    by_cases hq : q x = true
    · rw [List.filter_cons_of_pos hq]
      by_cases hp : p x = true
      · rw [List.find?_cons_of_pos _ hp, List.find?_cons_of_pos _ (by simp [hq, hp])]
      · rw [List.find?_cons_of_neg _ (by simpa using hp),
          List.find?_cons_of_neg _ (by simp [hq, hp]), ih]
    · rw [List.filter_cons_of_neg (by simpa using hq),
        List.find?_cons_of_neg _ (by simp [hq]), ih]

theorem robotsBest_step (b : Bool) (path r : List Char) (rs : List (List Char))
    (st : Option Bool × Int) :
    robotsBest b path (r :: rs) st
      = robotsBest b path rs
          (if r = [] then st
           else if ¬ (startsWithL r path = true) then st
           else if st.2 < (r.length : Int) then (some b, (r.length : Int)) else st) := by
  rfl

theorem robotsBest_snd_le (b : Bool) (path : List Char) :
    ∀ rs st, st.2 ≤ (robotsBest b path rs st).2 := by
  intro rs
  induction rs with
  | nil => intro st; exact le_refl _
  | cons r rs ih =>
    intro st
    rw [robotsBest_step]
    by_cases h1 : r = []
    · rw [if_pos h1]; exact ih st
    · rw [if_neg h1]
      by_cases h2 : startsWithL r path = true
      · rw [if_neg (by simp [h2])]
        by_cases h3 : st.2 < (r.length : Int)
        · rw [if_pos h3]
          calc st.2 ≤ (r.length : Int) := le_of_lt h3
            _ = ((some b, (r.length : Int)) : Option Bool × Int).2 := rfl
            _ ≤ _ := ih _
        · rw [if_neg h3]; exact ih st
      · rw [if_pos (by simp [h2])]; exact ih st

theorem robotsBest_matching_le (b : Bool) (path : List Char) :
    ∀ rs st, ∀ r ∈ rs, r ≠ [] → startsWithL r path = true →
      (r.length : Int) ≤ (robotsBest b path rs st).2 := by
  intro rs
  induction rs with
  | nil => intro st r hr; simp at hr
  | cons r0 rs ih =>
    intro st r hr hne hsw
    rcases List.mem_cons.mp hr with h1 | h1
    · subst h1
      rw [robotsBest_step, if_neg hne, if_neg (by simp [hsw])]
      by_cases h3 : st.2 < (r.length : Int)
      · rw [if_pos h3]
        calc (r.length : Int) = ((some b, (r.length : Int)) : Option Bool × Int).2 := rfl
          _ ≤ _ := robotsBest_snd_le b path rs _
      · rw [if_neg h3]
        calc (r.length : Int) ≤ st.2 := le_of_not_lt h3
          _ ≤ _ := robotsBest_snd_le b path rs st
    · rw [robotsBest_step]
      exact ih _ r h1 hne hsw

theorem robotsBest_cases (b : Bool) (path : List Char) :
    ∀ rs st, robotsBest b path rs st = st
      ∨ ∃ r ∈ rs, r ≠ [] ∧ startsWithL r path = true
          ∧ (robotsBest b path rs st).1 = some b := by
  intro rs
  induction rs with
  | nil => intro st; exact Or.inl rfl
  | cons r0 rs ih =>
    intro st
    rw [robotsBest_step]
    by_cases h1 : r0 = []
    · rw [if_pos h1]
      rcases ih st with h | ⟨r, hr, h⟩
      · exact Or.inl h
      · exact Or.inr ⟨r, by simp [hr], h⟩
    · rw [if_neg h1]
      by_cases h2 : startsWithL r0 path = true
      · rw [if_neg (by simp [h2])]
        by_cases h3 : st.2 < (r0.length : Int)
        · rw [if_pos h3]
          rcases ih ((some b, (r0.length : Int))) with h | ⟨r, hr, h⟩
          · right
            exact ⟨r0, by simp, h1, h2, by rw [h]⟩
          · exact Or.inr ⟨r, by simp [hr], h⟩
        · rw [if_neg h3]
          rcases ih st with h | ⟨r, hr, h⟩
          · exact Or.inl h
          · exact Or.inr ⟨r, by simp [hr], h⟩
      · rw [if_pos (by simp [h2])]
        rcases ih st with h | ⟨r, hr, h⟩
        · exact Or.inl h
        · exact Or.inr ⟨r, by simp [hr], h⟩

theorem robotsBest_snd_cases (b : Bool) (path : List Char) :
    ∀ rs st, (robotsBest b path rs st).2 = st.2
      ∨ ∃ r ∈ rs, r ≠ [] ∧ startsWithL r path = true
          ∧ (robotsBest b path rs st).2 = (r.length : Int) := by
  intro rs
  induction rs with
  | nil => intro st; exact Or.inl rfl
  | cons r0 rs ih =>
    intro st
    rw [robotsBest_step]
    by_cases h1 : r0 = []
    · rw [if_pos h1]
      rcases ih st with h | ⟨r, hr, h⟩
      · exact Or.inl h
      · exact Or.inr ⟨r, by simp [hr], h⟩
    · rw [if_neg h1]
      by_cases h2 : startsWithL r0 path = true
      · rw [if_neg (by simp [h2])]
        by_cases h3 : st.2 < (r0.length : Int)
        · rw [if_pos h3]
          rcases ih ((some b, (r0.length : Int))) with h | ⟨r, hr, h⟩
          · exact Or.inr ⟨r0, by simp, h1, h2, by rw [h]⟩
          · exact Or.inr ⟨r, by simp [hr], h⟩
        · rw [if_neg h3]
          rcases ih st with h | ⟨r, hr, h⟩
          · exact Or.inl h
          · exact Or.inr ⟨r, by simp [hr], h⟩
      · rw [if_pos (by simp [h2])]
        rcases ih st with h | ⟨r, hr, h⟩
        · exact Or.inl h
        · exact Or.inr ⟨r, by simp [hr], h⟩

theorem robotsBest_pair (b : Bool) (path : List Char) :
    ∀ rs st, robotsBest b path rs st = st
      ∨ ∃ r ∈ rs, r ≠ [] ∧ startsWithL r path = true ∧ st.2 < (r.length : Int)
          ∧ robotsBest b path rs st = (some b, (r.length : Int)) := by
  intro rs
  induction rs with
  | nil => intro st; exact Or.inl rfl
  | cons r0 rs ih =>
    intro st
    rw [robotsBest_step]
    by_cases h1 : r0 = []
    · rw [if_pos h1]
      rcases ih st with h | ⟨r, hr, h⟩
      · exact Or.inl h
      · exact Or.inr ⟨r, by simp [hr], h⟩
    · rw [if_neg h1]
      by_cases h2 : startsWithL r0 path = true
      · rw [if_neg (by simp [h2])]
        by_cases h3 : st.2 < (r0.length : Int)
        · rw [if_pos h3]
          rcases ih ((some b, (r0.length : Int))) with h | ⟨r, hr, hne, hsw, hlt, h⟩
          · exact Or.inr ⟨r0, by simp, h1, h2, h3, by rw [h]⟩
          · refine Or.inr ⟨r, by simp [hr], hne, hsw, ?_, h⟩
            calc st.2 < (r0.length : Int) := h3
              _ = ((some b, (r0.length : Int)) : Option Bool × Int).2 := rfl
              _ < (r.length : Int) := hlt
        · rw [if_neg h3]
          rcases ih st with h | ⟨r, hr, h⟩
          · exact Or.inl h
          · exact Or.inr ⟨r, by simp [hr], h⟩
      · rw [if_pos (by simp [h2])]
        rcases ih st with h | ⟨r, hr, h⟩
        · exact Or.inl h
        · exact Or.inr ⟨r, by simp [hr], h⟩

/-- Characterization of `pathAllowed`: the path is rejected exactly when some
nonempty Disallow rule matches as a leading run and is strictly longer than
every matching Allow rule (so ties and no-match default to allowed). -/
theorem pathAllowed_iff (path : List Char) (rules : RobotsRuleSet) :
    pathAllowed path rules = false ↔
      ∃ d ∈ rules.disallow, d ≠ [] ∧ startsWithL d path = true ∧
        ∀ a ∈ rules.allow, a ≠ [] → startsWithL a path = true → a.length < d.length := by
  have hbool : pathAllowed path rules = false ↔
      (robotsBest false path rules.disallow (robotsBest true path rules.allow (none, -1))).1
        = some false := by
    unfold pathAllowed
    simp
  rw [hbool]
  constructor
  · intro hfst
    rcases robotsBest_pair false path rules.disallow
        (robotsBest true path rules.allow (none, -1)) with h | ⟨d, hd, hdne, hdsw, hdlt, heq⟩
    · rw [h] at hfst
      rcases robotsBest_pair true path rules.allow ((none, -1)) with h2 | ⟨a, _, _, _, _, h2⟩
      · rw [h2] at hfst; simp at hfst
      · rw [h2] at hfst; simp at hfst
    · refine ⟨d, hd, hdne, hdsw, ?_⟩
      intro a ha hane hasw
      have h1 : (a.length : Int) ≤ (robotsBest true path rules.allow ((none, -1))).2 :=
        robotsBest_matching_le true path rules.allow _ a ha hane hasw
      have h2 : (a.length : Int) < (d.length : Int) := lt_of_le_of_lt h1 hdlt
      exact_mod_cast h2
  · rintro ⟨d, hd, hdne, hdsw, hall⟩
    rcases robotsBest_pair false path rules.disallow
        (robotsBest true path rules.allow (none, -1)) with h | ⟨d', hd', hdne', hdsw', hdlt', heq⟩
    · exfalso
      have hle : (d.length : Int) ≤ (robotsBest true path rules.allow ((none, -1))).2 := by
        have := robotsBest_matching_le false path rules.disallow
          (robotsBest true path rules.allow ((none, -1))) d hd hdne hdsw
        rw [h] at this
        exact this
      have hpos : 0 < d.length := List.length_pos.mpr hdne
      rcases robotsBest_snd_cases true path rules.allow ((none, -1)) with h2 | ⟨a, ha, hane, hasw, h2⟩
      · rw [h2] at hle
        simp at hle
        omega
      · rw [h2] at hle
        have : d.length ≤ a.length := by exact_mod_cast hle
        have := hall a ha hane hasw
        omega
    · rw [heq]

/-- C8: rejection of foreign/unparsable URLs, delegation to the path decision
on same-origin URLs, and the longest-matching-rule characterization of that
decision (ties and no-match default to allowed). -/
theorem robots_allow_decision :
    (∀ url robots, safeHttpUrlM url = none → isAllowedByRobots url robots = false)
    ∧ (∀ url robots u, safeHttpUrlM url = some u → u.origin ≠ robots.origin →
        isAllowedByRobots url robots = false)
    ∧ (∀ url robots u, safeHttpUrlM url = some u → u.origin = robots.origin →
        isAllowedByRobots url robots = pathAllowed u.path robots.rules)
    ∧ (∀ path rules, pathAllowed path rules = false ↔
        ∃ d ∈ rules.disallow, d ≠ [] ∧ startsWithL d path = true ∧
          ∀ a ∈ rules.allow, a ≠ [] → startsWithL a path = true → a.length < d.length) := by
  refine ⟨?_, ?_, ?_, pathAllowed_iff⟩
  · intro url robots h
    unfold isAllowedByRobots
    rw [h]
  · intro url robots u h hne
    unfold isAllowedByRobots
    rw [h]
    simp only []
    rw [if_pos hne]
  · intro url robots u h heq
    unfold isAllowedByRobots
    rw [h]
    simp only []
    rw [if_neg (by simp [heq])]

def wRobots : RobotsTxt := ⟨"https://h".data, ⟨["/private".data], [], none⟩⟩

/-- Witness for the C8 theorem at concrete inputs. -/
theorem robots_allow_decision_witness :
    isAllowedByRobots "ftp://h/x".data wRobots = false
    ∧ isAllowedByRobots "https://other/x".data wRobots = false
    ∧ isAllowedByRobots "https://h/private/x".data wRobots
        = pathAllowed "/private/x".data wRobots.rules :=
  ⟨robots_allow_decision.1 _ wRobots (by decide),
   robots_allow_decision.2.1 _ wRobots
     ⟨"https".data, "other".data, [], "/x".data, none, none⟩ (by decide) (by decide),
   robots_allow_decision.2.2.1 _ wRobots
     ⟨"https".data, "h".data, [], "/private/x".data, none, none⟩ (by decide) (by decide)⟩

/-- Governing-section choice as the claim words it: prefer the first section
in document order whose agent list contains a genuine non-`*`
case-insensitive substring match on the crawler name; otherwise the first
section matched via its wildcard agent. -/
def selectSectionClaim (sections : List RobotsSection) (ua : List Char) : Option RobotsSection :=
  (sections.find? (fun s => s.agents.any
      (fun a => !(trimChars a == ['*']) && matchUserAgent a ua))).orElse
    (fun _ => (sections.filter (sectionMatches ua)).find? hasStarAgent)

def robotsCexDoc : String :=
  "User-agent: bar\nUser-agent: *\nDisallow: /a\nUser-agent: foo\nDisallow: /b"

/-- C7 counterexample: with crawler name `foo`, the source's selector prefers
the first matching section that contains any non-`*` agent string, even when
that section matched only via its wildcard agent.  On this document it picks
the `bar`/`*` section (rules `/a`), while the claim's described preference —
a section whose agent list actually name-matches the crawler — picks the
`foo` section (rules `/b`). -/
theorem parseRobotsTxt_selection_cex :
    (parseRobotsTxt "https://e.com".data robotsCexDoc.data "foo".data).rules.disallow
      = ["/a".data]
    ∧ ((selectSectionClaim (buildSections (robotsLines robotsCexDoc.data) [] none)
          "foo".data).map (fun s => s.disallow)) = some ["/b".data]
    ∧ (["/a".data] : List (List Char)) ≠ ["/b".data] :=
  ⟨by decide, by decide, by decide⟩

theorem find?_some_iff_split {α : Type} (p : α → Bool) (l : List α) (s : α) :
    l.find? p = some s ↔ p s = true ∧ ∃ l1 l2, l = l1 ++ s :: l2 ∧ ∀ t ∈ l1, ¬ (p t = true) := by
  rw [List.find?_eq_some]
  constructor
  · rintro ⟨hp, as, bs, heq, hall⟩
    exact ⟨hp, as, bs, heq, fun t ht => by simpa using hall t ht⟩
  · rintro ⟨hp, as, bs, heq, hall⟩
    exact ⟨hp, as, bs, heq, fun t ht => by simpa using hall t ht⟩

theorem orElse_some_iff {α : Type} (o : Option α) (f : Unit → Option α) (s : α) :
    o.orElse f = some s ↔ o = some s ∨ (o = none ∧ f () = some s) := by
  cases o with
  | some a => simp [Option.orElse]
  | none => simp [Option.orElse]

/-- C7 (amended): directive grouping merges a `User-agent` line into the
current section exactly when that section has no Allow/Disallow rule yet, and
otherwise closes the section and starts a new one; the governing section is
the first matching section in document order that contains any non-`*` agent
string (even when its match was via `*`), falling back to the first matching
section with a `*` agent; and the chosen section's rule lists become the
parse result. -/
theorem parseRobotsTxt_grouping_and_selection :
    (∀ line rest done c key value,
        parseDirective line = some (key, value) → key = "user-agent".data →
        c.disallow = [] → c.allow = [] →
        buildSections (line :: rest) done (some c)
          = buildSections rest done (some { c with agents := c.agents ++ [value] }))
    ∧ (∀ line rest done c key value,
        parseDirective line = some (key, value) → key = "user-agent".data →
        0 < c.disallow.length + c.allow.length →
        buildSections (line :: rest) done (some c)
          = buildSections rest (done ++ [c]) (some ⟨[value], [], [], none⟩))
    ∧ (∀ sections ua s,
        selectSection sections ua = some s ↔
          ((sectionMatches ua s = true ∧ hasNonStarAgent s = true
            ∧ ∃ l1 l2, sections = l1 ++ s :: l2
                ∧ ∀ t ∈ l1, ¬ (sectionMatches ua t = true ∧ hasNonStarAgent t = true))
          ∨ ((∀ t ∈ sections, ¬ (sectionMatches ua t = true ∧ hasNonStarAgent t = true))
            ∧ sectionMatches ua s = true ∧ hasStarAgent s = true
            ∧ ∃ l1 l2, sections = l1 ++ s :: l2
                ∧ ∀ t ∈ l1, ¬ (sectionMatches ua t = true ∧ hasStarAgent t = true))))
    ∧ (∀ origin content ua,
        (parseRobotsTxt origin content ua).rules.disallow
          = ((selectSection (buildSections (robotsLines content) [] none) ua).map
              (fun s => s.disallow)).getD []
        ∧ (parseRobotsTxt origin content ua).rules.allow
          = ((selectSection (buildSections (robotsLines content) [] none) ua).map
              (fun s => s.allow)).getD []) := by
  refine ⟨?_, ?_, ?_, ?_⟩
  · intro line rest done c key value hdir hkey hd ha
    subst hkey
    simp only [buildSections, hdir]
    rw [if_pos trivial, if_neg (by simp [hd, ha])]
  · intro line rest done c key value hdir hkey hrules
    subst hkey
    simp only [buildSections, hdir]
    rw [if_pos trivial, if_pos hrules]
  · intro sections ua s
    unfold selectSection
    rw [filter_find?_fuse, filter_find?_fuse, orElse_some_iff,
      find?_some_iff_split, find?_some_iff_split, List.find?_eq_none]
    constructor
    · rintro (⟨hp, l1, l2, heq, hall⟩ | ⟨hnone, hq, l1, l2, heq, hall⟩)
      · left
        simp only [Bool.and_eq_true] at hp
        refine ⟨hp.1, hp.2, l1, l2, heq, ?_⟩
        intro t ht hcon
        exact hall t ht (by simp [hcon.1, hcon.2])
      · right
        simp only [Bool.and_eq_true] at hq
        refine ⟨?_, hq.1, hq.2, l1, l2, heq, ?_⟩
        · intro t ht hcon
          exact hnone t ht (by simp [hcon.1, hcon.2])
        · intro t ht hcon
          exact hall t ht (by simp [hcon.1, hcon.2])
    · rintro (⟨hm, hn, l1, l2, heq, hfirst⟩ | ⟨hnone, hm, hstar, l1, l2, heq, hfirst⟩)
      · left
        refine ⟨by simp [hm, hn], l1, l2, heq, ?_⟩
        intro t ht hP
        simp only [Bool.and_eq_true] at hP
        exact hfirst t ht ⟨hP.1, hP.2⟩
      · right
        refine ⟨?_, by simp [hm, hstar], l1, l2, heq, ?_⟩
        · intro t ht hP
          simp only [Bool.and_eq_true] at hP
          exact hnone t ht ⟨hP.1, hP.2⟩
        · intro t ht hP
          simp only [Bool.and_eq_true] at hP
          exact hfirst t ht ⟨hP.1, hP.2⟩
  · intro origin content ua
    exact ⟨rfl, rfl⟩

/-- Witness for the amended C7 theorem: the grouping rules applied at the
head of a concrete line list. -/
theorem parseRobotsTxt_grouping_witness :
    buildSections ["User-agent: b".data, "Disallow: /x".data] []
        (some ⟨["a".data], [], [], none⟩)
      = buildSections ["Disallow: /x".data] []
          (some ⟨["a".data, "b".data], [], [], none⟩)
    ∧ buildSections ["User-agent: b".data] [] (some ⟨["a".data], ["/y".data], [], none⟩)
      = buildSections [] [⟨["a".data], ["/y".data], [], none⟩]
          (some ⟨["b".data], [], [], none⟩) :=
  ⟨parseRobotsTxt_grouping_and_selection.1 _ _ [] ⟨["a".data], [], [], none⟩
      "user-agent".data "b".data (by decide) rfl rfl rfl,
   parseRobotsTxt_grouping_and_selection.2.1 _ _ [] ⟨["a".data], ["/y".data], [], none⟩
      "user-agent".data "b".data (by decide) rfl (by decide)⟩

/-! ### Host scheduler (`src/core/HostScheduler.ts`)

The admission loop polls until its guard holds; a trace records the
successful admissions (with the `Date.now` reading at which the guard
passed) and the releases.  `runSched` replays a trace against the
scheduler's two per-host maps and fails if a recorded admission would not
actually have been granted by the guard. -/

def mapGetD (m : List (String × Nat)) (k : String) : Nat :=
  match m.find? (fun p => p.1 = k) with
  | some p => p.2
  | none => 0

def mapSet (k : String) (v : Nat) : List (String × Nat) → List (String × Nat)
  | [] => [(k, v)]
  | (k', v') :: rest => if k' = k then (k, v) :: rest else (k', v') :: mapSet k v rest

def mapDel (k : String) (m : List (String × Nat)) : List (String × Nat) :=
  m.filter (fun p => p.1 ≠ k)

structure SchedState where
  inflightByHost : List (String × Nat)
  lastStartByHost : List (String × Nat)
deriving DecidableEq, Repr

def emptySched : SchedState := ⟨[], []⟩

/-- Guard-and-update of `acquire`: admitted at reading `now` iff the in-flight
count is below the cap and `max(0, minDelayMs - (now - lastStart))` is zero
(`Nat` subtraction models the clamping `max(0, ...)`). -/
def tryAcquire (cap minDelay : Nat) (host : String) (now : Nat) (s : SchedState) :
    Option SchedState :=
  let inflight := mapGetD s.inflightByHost host
  let lastStart := mapGetD s.lastStartByHost host
  let waitForDelay := minDelay - (now - lastStart)
  if inflight < cap ∧ waitForDelay = 0 then
    some { inflightByHost := mapSet host (inflight + 1) s.inflightByHost
           lastStartByHost := mapSet host now s.lastStartByHost }
  else none

/-- `release`: decrement the host's in-flight count, deleting the entry when
it drops to zero (the `inflight <= 1` branch of the source). -/
def schedRelease (host : String) (s : SchedState) : SchedState :=
  let inflight := mapGetD s.inflightByHost host
  if inflight ≤ 1 then { s with inflightByHost := mapDel host s.inflightByHost }
  else { s with inflightByHost := mapSet host (inflight - 1) s.inflightByHost }

inductive SchedEvent where
  | acquire (host : String) (now : Nat)
  | release (host : String)
deriving DecidableEq, Repr

def runSched (cap minDelay : Nat) : SchedState → List SchedEvent → Option SchedState
  | s, [] => some s
  | s, SchedEvent.acquire h t :: rest =>
    match tryAcquire cap minDelay h t s with
    | some s' => runSched cap minDelay s' rest
    | none => none
  | s, SchedEvent.release h :: rest => runSched cap minDelay (schedRelease h s) rest

theorem mapGetD_cons (k0 : String) (v0 : Nat) (rest : List (String × Nat)) (k' : String) :
    mapGetD ((k0, v0) :: rest) k' = if k0 = k' then v0 else mapGetD rest k' := by
  by_cases h : k0 = k'
  · simp [mapGetD, List.find?, h]
  · simp [mapGetD, List.find?, h]

theorem mapGetD_set_same (k : String) (v : Nat) :
    ∀ m, mapGetD (mapSet k v m) k = v := by
  intro m
  induction m with
  | nil => simp [mapSet, mapGetD_cons]
  | cons p rest ih =>
    obtain ⟨k', v'⟩ := p
    by_cases h : k' = k
    · simp [mapSet, h, mapGetD_cons]
    · rw [mapSet, if_neg h, mapGetD_cons, if_neg h, ih]

theorem mapGetD_set_other (k k' : String) (v : Nat) (hne : k' ≠ k) :
    ∀ m, mapGetD (mapSet k v m) k' = mapGetD m k' := by
  intro m
  induction m with
  | nil =>
    rw [mapSet, mapGetD_cons, if_neg (fun h => hne h.symm)]
  | cons p rest ih =>
    obtain ⟨k0, v0⟩ := p
    by_cases h : k0 = k
    · subst h
      rw [mapSet, if_pos rfl, mapGetD_cons, if_neg (fun h => hne h.symm),
        mapGetD_cons, if_neg (fun h => hne h.symm)]
    · rw [mapSet, if_neg h, mapGetD_cons, mapGetD_cons, ih]

theorem mapGetD_del (k k' : String) :
    ∀ m, mapGetD (mapDel k m) k' = if k' = k then 0 else mapGetD m k' := by
  intro m
  induction m with
  | nil =>
    by_cases h : k' = k <;> simp [mapDel, mapGetD, List.find?, h]
  | cons p rest ih =>
    obtain ⟨k0, v0⟩ := p
    by_cases h : k0 = k
    · subst h
      rw [show mapDel k0 ((k0, v0) :: rest) = mapDel k0 rest from by simp [mapDel], ih]
      by_cases h2 : k' = k0
      · simp [h2]
      · simp only [if_neg h2, mapGetD_cons]
        rw [if_neg (fun hc : k0 = k' => h2 hc.symm)]
    · rw [show mapDel k ((k0, v0) :: rest) = (k0, v0) :: mapDel k rest from by
        simp [mapDel, h]]
      rw [mapGetD_cons, mapGetD_cons]
      by_cases h2 : k0 = k'
      · subst h2
        rw [if_pos rfl, if_pos rfl, if_neg (fun hc => h hc)]
      · rw [if_neg h2, if_neg h2, ih]

theorem runSched_append (cap d : Nat) :
    ∀ evs1 evs2 s, runSched cap d s (evs1 ++ evs2)
      = match runSched cap d s evs1 with
        | some s1 => runSched cap d s1 evs2
        | none => none := by
  intro evs1
  induction evs1 with
  | nil => intro evs2 s; rfl
  | cons e rest ih =>
    intro evs2 s
    cases e with
    | acquire h t =>
      rw [List.cons_append, runSched, runSched]
      cases tryAcquire cap d h t s with
      | some s1 => exact ih evs2 s1
      | none => rfl
    | release h =>
      rw [List.cons_append, runSched, runSched]
      exact ih evs2 _

theorem tryAcquire_inv (cap d : Nat) (h0 : String) (t : Nat) (s s1 : SchedState)
    (htry : tryAcquire cap d h0 t s = some s1) :
    mapGetD s.inflightByHost h0 < cap
    ∧ d - (t - mapGetD s.lastStartByHost h0) = 0
    ∧ s1.inflightByHost = mapSet h0 (mapGetD s.inflightByHost h0 + 1) s.inflightByHost
    ∧ s1.lastStartByHost = mapSet h0 t s.lastStartByHost := by
  simp only [tryAcquire] at htry
  split at htry
  · rename_i hguard
    have hs1 := Option.some.inj htry
    exact ⟨hguard.1, hguard.2, by rw [← hs1], by rw [← hs1]⟩
  · exact absurd htry (by simp)

theorem runSched_cap_inv (cap d : Nat) :
    ∀ evs s s', (∀ h, mapGetD s.inflightByHost h ≤ cap) →
      runSched cap d s evs = some s' →
      ∀ h, mapGetD s'.inflightByHost h ≤ cap := by
  intro evs
  induction evs with
  | nil =>
    intro s s' hinv hrun
    cases hrun
    exact hinv
  | cons e rest ih =>
    intro s s' hinv hrun
    cases e with
    | acquire h0 t =>
      rw [runSched] at hrun
      cases htry : tryAcquire cap d h0 t s with
      | none => rw [htry] at hrun; exact absurd hrun (by simp)
      | some s1 =>
        rw [htry] at hrun
        obtain ⟨hlt, -, hinf, -⟩ := tryAcquire_inv cap d h0 t s s1 htry
        refine ih s1 s' ?_ hrun
        intro h
        rw [hinf]
        by_cases he : h0 = h
        · subst he
          rw [mapGetD_set_same]
          omega
        · rw [mapGetD_set_other h0 h _ (fun hc => he hc.symm)]
          exact hinv h
    | release h0 =>
      rw [runSched] at hrun
      refine ih _ s' ?_ hrun
      intro h
      unfold schedRelease
      by_cases hle : mapGetD s.inflightByHost h0 ≤ 1
      · rw [if_pos hle]
        have : ({ s with inflightByHost := mapDel h0 s.inflightByHost } : SchedState).inflightByHost
            = mapDel h0 s.inflightByHost := rfl
        rw [this, mapGetD_del]
        by_cases he : h = h0
        · simp [he]
        · rw [if_neg he]; exact hinv h
      · rw [if_neg hle]
        have : ({ s with inflightByHost := mapSet h0 (mapGetD s.inflightByHost h0 - 1) s.inflightByHost } : SchedState).inflightByHost
            = mapSet h0 (mapGetD s.inflightByHost h0 - 1) s.inflightByHost := rfl
        rw [this]
        by_cases he : h0 = h
        · subst he
          rw [mapGetD_set_same]
          have := hinv h0
          omega
        · rw [mapGetD_set_other h0 h _ (fun hc => he hc.symm)]
          exact hinv h

theorem runSched_lastStart_stable (cap d : Nat) (h : String) :
    ∀ evs s s', (∀ t, SchedEvent.acquire h t ∉ evs) →
      runSched cap d s evs = some s' →
      mapGetD s'.lastStartByHost h = mapGetD s.lastStartByHost h := by
  intro evs
  induction evs with
  | nil =>
    intro s s' _ hrun
    cases hrun
    rfl
  | cons e rest ih =>
    intro s s' hno hrun
    cases e with
    | acquire h0 t =>
      have hne : h0 ≠ h := by
        intro hc
        subst hc
        exact hno t (by simp)
      rw [runSched] at hrun
      cases htry : tryAcquire cap d h0 t s with
      | none => rw [htry] at hrun; exact absurd hrun (by simp)
      | some s1 =>
        rw [htry] at hrun
        obtain ⟨-, -, -, hlast⟩ := tryAcquire_inv cap d h0 t s s1 htry
        have h1 := ih s1 s' (fun t2 ht2 => hno t2 (by simp [ht2])) hrun
        rw [h1, hlast, mapGetD_set_other h0 h _ (fun hc => hne hc.symm)]
    | release h0 =>
      rw [runSched] at hrun
      have h1 := ih _ s' (fun t2 ht2 => hno t2 (by simp [ht2])) hrun
      rw [h1]
      unfold schedRelease
      by_cases hle : mapGetD s.inflightByHost h0 ≤ 1
      · rw [if_pos hle]
      · rw [if_neg hle]

/-- Per-item effective delay computed inside the batch dispatch of
`AgentCrawl.crawl`: the robots crawl-delay (when respected and set, with the
source's truthiness check collapsing a zero delay) floored by the configured
`minDelayMs`. -/
def effectiveDelayMs (minDelayMs : Nat) (respectCrawlDelay : Bool)
    (robotsCrawlDelayMs : Option Nat) : Nat :=
  let delayMs := if respectCrawlDelay then robotsCrawlDelayMs.getD 0 else 0
  max minDelayMs delayMs

/-- Whether the crawl routes a batch item through the shared scheduler
(`effectiveDelay === (config.minDelayMs ?? 0)`) or constructs a fresh ad hoc
`HostScheduler` for that single item. -/
def usesSharedScheduler (minDelayMs : Nat) (respectCrawlDelay : Bool)
    (robotsCrawlDelayMs : Option Nat) : Bool :=
  effectiveDelayMs minDelayMs respectCrawlDelay robotsCrawlDelayMs == minDelayMs

theorem runSched_cons_acquire (cap d : Nat) (h : String) (t : Nat)
    (rest : List SchedEvent) (s s' : SchedState)
    (hrun : runSched cap d s (SchedEvent.acquire h t :: rest) = some s') :
    ∃ s1, tryAcquire cap d h t s = some s1 ∧ runSched cap d s1 rest = some s' := by
  rw [runSched] at hrun
  cases htry : tryAcquire cap d h t s with
  | none => rw [htry] at hrun; exact absurd hrun (by simp)
  | some s1 =>
    rw [htry] at hrun
    exact ⟨s1, rfl, hrun⟩

/-- C4 (amended): for all admissions booked through one `HostScheduler`
instance, (i) at every prefix of a successful trace, each host's in-flight
count is at most the per-host cap; (ii) two successive admissions for the
same host are at least the instance's configured delay apart,
start-to-start; and (iii) the per-item effective delay is the maximum of the
configured floor and the robots crawl-delay, hence never below the floor. -/
theorem hostScheduler_guarantees :
    (∀ cap d evs1 evs2 s', runSched cap d emptySched (evs1 ++ evs2) = some s' →
       ∃ s1, runSched cap d emptySched evs1 = some s1
         ∧ ∀ h, mapGetD s1.inflightByHost h ≤ cap)
    ∧ (∀ cap d evs1 evs2 evs3 h t1 t2 s',
        runSched cap d emptySched
          (evs1 ++ SchedEvent.acquire h t1 :: (evs2 ++ SchedEvent.acquire h t2 :: evs3))
          = some s' →
        (∀ t, SchedEvent.acquire h t ∉ evs2) → t1 ≤ t2 → t1 + d ≤ t2)
    ∧ (∀ m r c, m ≤ effectiveDelayMs m r c
        ∧ effectiveDelayMs m r c = max m (if r then c.getD 0 else 0)) := by
  refine ⟨?_, ?_, ?_⟩
  · intro cap d evs1 evs2 s' hrun
    rw [runSched_append] at hrun
    cases h1 : runSched cap d emptySched evs1 with
    | none => rw [h1] at hrun; exact absurd hrun (by simp)
    | some s1 =>
      refine ⟨s1, rfl, ?_⟩
      exact runSched_cap_inv cap d evs1 emptySched s1
        (fun h => by simp [emptySched, mapGetD, List.find?]) h1
  · intro cap d evs1 evs2 evs3 h t1 t2 s' hrun hno hle
    rw [runSched_append] at hrun
    cases h1 : runSched cap d emptySched evs1 with
    | none => rw [h1] at hrun; exact absurd hrun (by simp)
    | some s1 =>
      rw [h1] at hrun
      have hrun1 : runSched cap d s1
          (SchedEvent.acquire h t1 :: (evs2 ++ SchedEvent.acquire h t2 :: evs3)) = some s' := hrun
      obtain ⟨s2, htry1, hrun2⟩ := runSched_cons_acquire _ _ _ _ _ _ _ hrun1
      rw [runSched_append] at hrun2
      cases h2 : runSched cap d s2 evs2 with
      | none => rw [h2] at hrun2; exact absurd hrun2 (by simp)
      | some s3 =>
        rw [h2] at hrun2
        have hrun3 : runSched cap d s3 (SchedEvent.acquire h t2 :: evs3) = some s' := hrun2
        obtain ⟨s4, htry2, -⟩ := runSched_cons_acquire _ _ _ _ _ _ _ hrun3
        obtain ⟨-, -, -, hlast2⟩ := tryAcquire_inv cap d h t1 s1 s2 htry1
        have hstable := runSched_lastStart_stable cap d h evs2 s2 s3 hno h2
        obtain ⟨-, hdelay, -, -⟩ := tryAcquire_inv cap d h t2 s3 s4 htry2
        rw [hstable, hlast2, mapGetD_set_same] at hdelay
        omega
  · intro m r c
    constructor
    · exact le_max_left _ _
    · rfl

def schedCexRun : Option SchedState := runSched 1 1000 emptySched [SchedEvent.acquire "h" 1000]

/-- C4 counterexample: with `minDelayMs = 0`, `perHostConcurrency = 1` and a
robots crawl-delay of 1000ms, the crawl's batch dispatch constructs a fresh
`HostScheduler` per item (`usesSharedScheduler = false`), so two batch items
for the same host are admitted by two independent instances: each instance's
trace is valid on its own, both admissions carry the same clock reading, the
combined in-flight count for the host is 2 > 1, and the start-to-start gap
is 0, below the effective 1000ms delay — the claimed per-host cap and
spacing do not hold across the batch. -/
theorem hostScheduler_crossInstance_cex :
    usesSharedScheduler 0 true (some 1000) = false
    ∧ effectiveDelayMs 0 true (some 1000) = 1000
    ∧ (schedCexRun.map (fun s => mapGetD s.inflightByHost "h")) = some 1
    ∧ (schedCexRun.map (fun s => mapGetD s.inflightByHost "h")).getD 0
        + (schedCexRun.map (fun s => mapGetD s.inflightByHost "h")).getD 0 = 2
    ∧ ¬ (2 ≤ 1)
    ∧ 1000 - 1000 < effectiveDelayMs 0 true (some 1000) :=
  ⟨by decide, by decide, by decide, by decide, by decide, by decide⟩

/-- Witness for the amended C4 theorem: a concrete two-admission trace on one
instance respects the spacing bound. -/
theorem hostScheduler_guarantees_witness : (20 : Nat) + 20 ≤ 40 :=
  hostScheduler_guarantees.2.1 2 20 [] [SchedEvent.release "h"] [] "h" 20 40
    ⟨[("h", 1)], [("h", 40)]⟩
    (by decide) (fun t ht => by simp at ht) (by decide)

/-! ### The crawl loop of `AgentCrawl.crawl` (src/AgentCrawl.ts)

The BFS loop is embedded as a fuel-indexed function over an explicit crawl
state.  Network effects are abstracted by an *oracle* mapping each dispatched
URL to the settled outcome of its scrape promise: `fulfilled` with the scraped
page, or `rejected` with the optional `reason.message`.  JS `Set` objects are
modelled as membership lists; the ghost field `dispatched` records every item
ever placed into a batch (the claim-relevant trace of scrape dispatches). -/

/-- The fields of a `ScrapedPage` the crawl loop inspects: `page.url` (the
final, possibly post-redirect URL), `page.links`, and `page.metadata?.error`
(absent metadata or error modelled as `none`). -/
structure ScrapedPageM where
  url : String
  links : List String
  error : Option String
deriving DecidableEq, Repr

/-- A settled entry of the `Promise.allSettled` result array. -/
inductive ScrapeOutcome where
  | fulfilled (page : ScrapedPageM)
  | rejected (msg : Option String)
deriving DecidableEq, Repr

/-- The crawl configuration fields the loop reads.  `robots = none` stands for
`robotsEnabled` being false or the robots fetch having failed. -/
structure CrawlCfg where
  maxDepth : Nat
  maxPages : Nat
  concurrency : Nat
  baseOrigin : String
  includePatterns : List String
  excludePatterns : List String
  robots : Option RobotsTxt

/-- A frontier entry `{ url, depth }`. -/
structure FrontierItem where
  url : String
  depth : Nat
deriving DecidableEq, Repr

/-- The mutable state of `crawl`: the `visited` and `queued` sets, the
accumulated `pages` and `errors`, `maxDepthReached`, and the BFS `queue`.
`dispatched` is a ghost trace of all batch items, in dispatch order. -/
structure CrawlState where
  visited : List String
  queued : List String
  pages : List ScrapedPageM
  errors : List (String × String)
  maxDepthReached : Nat
  queue : List FrontierItem
  dispatched : List FrontierItem
deriving DecidableEq, Repr

/-- `Set.add`: membership-preserving insert. -/
def insertSet (x : String) (s : List String) : List String :=
  if x ∈ s then s else x :: s

/-- `Set.delete`. -/
def eraseSet (x : String) (s : List String) : List String :=
  s.filter (fun y => decide (y ≠ x))

/-- JS `a || b` on an optional string: `undefined` and the empty string are
falsy and select the default. -/
def jsOrElse (o : Option String) (dflt : String) : String :=
  match o with
  | none => dflt
  | some e => if e = "" then dflt else e

/-- Truthiness of `page.metadata?.error`: present and non-empty. -/
def errTruthy : Option String → Bool
  | none => false
  | some e => decide (e ≠ "")

/-- `matchesPatterns` of `crawl`: empty include list admits everything,
otherwise some include pattern must occur as a substring; any exclude
pattern occurring as a substring rejects. -/
def matchesPatterns (cfg : CrawlCfg) (url : String) : Bool :=
  (cfg.includePatterns.isEmpty
      || cfg.includePatterns.any (fun p => containsL p.data url.data))
    && !(cfg.excludePatterns.any (fun p => containsL p.data url.data))

/-- The robots conjunct of `shouldQueue`: with no robots data every URL
passes, otherwise `isAllowedByRobots` decides. -/
def robotsAllows : Option RobotsTxt → String → Bool
  | none, _ => true
  | some rb, url => isAllowedByRobots url.data rb

/-- `shouldQueue` of `crawl`: same-origin prefix test, URL parsability,
include/exclude patterns, and the robots gate. -/
def shouldQueue (cfg : CrawlCfg) (url : String) : Bool :=
  startsWithL cfg.baseOrigin.data url.data
    && (safeHttpUrlM url.data).isSome
    && matchesPatterns cfg url
    && robotsAllows cfg.robots url

/-- Result of the inner batch-collection loop. -/
structure BatchResult where
  queue : List FrontierItem
  visited : List String
  queued : List String
  batch : List FrontierItem
deriving DecidableEq, Repr

/-- The inner `while` of `crawl` (lines 415-426): shift items while the batch
is under `concurrency` and `pages.length + batch.length < maxPages`; each
shifted item is removed from `queued`, skipped when already visited or deeper
than `maxDepth`, and otherwise visited-marked and appended to the batch.
`pagesLen` is the (loop-constant) `pages.length`. -/
def takeBatch (cfg : CrawlCfg) (pagesLen : Nat) :
    List FrontierItem → List String → List String → List FrontierItem → BatchResult
  | [], visited, queued, batch => ⟨[], visited, queued, batch⟩
  | item :: rest, visited, queued, batch =>
    if batch.length < cfg.concurrency ∧ pagesLen + batch.length < cfg.maxPages then
      if item.url ∈ visited ∨ cfg.maxDepth < item.depth then
        takeBatch cfg pagesLen rest visited (eraseSet item.url queued) batch
      else
        takeBatch cfg pagesLen rest (insertSet item.url visited)
          (eraseSet item.url queued) (batch ++ [item])
    else ⟨item :: rest, visited, queued, batch⟩

/-- The link-harvest loop (lines 462-469): normalize each link and enqueue it
at `depth + 1` when `shouldQueue` passes and it is in neither `visited` nor
`queued`. -/
def harvestLinks (cfg : CrawlCfg) (depth : Nat) : List String → CrawlState → CrawlState
  | [], st => st
  | link :: rest, st =>
    if shouldQueue cfg (normalizeUrlForDedupe link) = true
        ∧ ¬ normalizeUrlForDedupe link ∈ st.visited
        ∧ ¬ normalizeUrlForDedupe link ∈ st.queued then
      harvestLinks cfg depth rest
        { st with
            queue := st.queue ++ [⟨normalizeUrlForDedupe link, depth + 1⟩],
            queued := insertSet (normalizeUrlForDedupe link) st.queued }
    else harvestLinks cfg depth rest st

/-- Handling of one settled result (lines 446-477): a rejection is recorded
into `errors` under the dispatched URL; a fulfilled page first visited-marks
the normalized final URL, then either (truthy `metadata.error`) is recorded
into `errors` under the dispatched URL, or is appended to `pages`, raises
`maxDepthReached`, and harvests links when strictly below `maxDepth`. -/
def processOutcome (cfg : CrawlCfg) (item : FrontierItem) (st : CrawlState) :
    ScrapeOutcome → CrawlState
  | ScrapeOutcome.rejected msg =>
    { st with errors := st.errors ++ [(item.url, jsOrElse msg "Failed to scrape")] }
  | ScrapeOutcome.fulfilled page =>
    let st1 : CrawlState :=
      { st with visited := insertSet (normalizeUrlForDedupe page.url) st.visited }
    if errTruthy page.error = true then
      { st1 with errors := st1.errors ++ [(item.url, jsOrElse page.error "Unknown error")] }
    else
      let st2 : CrawlState :=
        { st1 with
            pages := st1.pages ++ [page],
            maxDepthReached := max st1.maxDepthReached item.depth }
      if item.depth < cfg.maxDepth then
        harvestLinks cfg item.depth page.links st2
      else st2

/-- One batch item processed against the oracle. -/
def processOne (cfg : CrawlCfg) (o : String → ScrapeOutcome)
    (item : FrontierItem) (st : CrawlState) : CrawlState :=
  processOutcome cfg item st (o item.url)

/-- The results `for` loop: fold `processOne` over the batch in order. -/
def processResults (cfg : CrawlCfg) (o : String → ScrapeOutcome) :
    List FrontierItem → CrawlState → CrawlState
  | [], st => st
  | item :: rest, st => processResults cfg o rest (processOne cfg o item st)

/-- One iteration of the outer `while` body: collect a batch (recording it in
the ghost `dispatched` trace) and process its settled results. -/
def crawlBody (cfg : CrawlCfg) (o : String → ScrapeOutcome) (st : CrawlState) : CrawlState :=
  let r := takeBatch cfg st.pages.length st.queue st.visited st.queued []
  processResults cfg o r.batch
    { st with
        queue := r.queue, visited := r.visited, queued := r.queued,
        dispatched := st.dispatched ++ r.batch }

/-- The outer `while (queue.length > 0 && pages.length < maxPages)` loop,
fuel-indexed; `none` means the fuel ran out before the loop condition
failed. -/
def crawlLoop (cfg : CrawlCfg) (o : String → ScrapeOutcome) :
    Nat → CrawlState → Option CrawlState
  | 0, _ => none
  | fuel + 1, st =>
    if st.queue ≠ [] ∧ st.pages.length < cfg.maxPages then
      crawlLoop cfg o fuel (crawlBody cfg o st)
    else some st

/-- The state persisted by `persistState` and read back on resume. -/
structure PersistedState where
  visited : List String
  queued : List String
  pages : List ScrapedPageM
  errors : List (String × String)
  maxDepthReached : Nat
  queue : List FrontierItem
deriving DecidableEq, Repr

/-- Resume hydration (lines 342-356): adopt the persisted sets, pages (when
`persistPages`), errors and `maxDepthReached`, and re-queue only persisted
frontier items whose URL is not already visited. -/
def hydrate (persistPages : Bool) (p : PersistedState) : CrawlState :=
  { visited := p.visited
    queued := p.queued
    pages := if persistPages then p.pages else []
    errors := p.errors
    maxDepthReached := p.maxDepthReached
    queue := p.queue.filter (fun i => decide (¬ i.url ∈ p.visited))
    dispatched := [] }

/-- The guarded push of the seeding step (lines 365-369): push the normalized
start URL at depth 0 when `shouldQueue` passes and it is in neither set. -/
def seedPush (cfg : CrawlCfg) (startUrl : String) (st : CrawlState) : CrawlState :=
  if shouldQueue cfg (normalizeUrlForDedupe startUrl) = true
      ∧ ¬ normalizeUrlForDedupe startUrl ∈ st.queued
      ∧ ¬ normalizeUrlForDedupe startUrl ∈ st.visited then
    { st with queue := st.queue ++ [⟨normalizeUrlForDedupe startUrl, 0⟩] }
  else st

/-- Seeding (lines 364-370): the guarded push, then `queued.add` of the
normalized start URL, unconditionally (line 370). -/
def seedStart (cfg : CrawlCfg) (startUrl : String) (st : CrawlState) : CrawlState :=
  { seedPush cfg startUrl st with
      queued := insertSet (normalizeUrlForDedupe startUrl)
        (seedPush cfg startUrl st).queued }

/-- The all-empty state of a fresh (non-resumed) crawl. -/
def initCrawlState : CrawlState :=
  ⟨[], [], [], [], 0, [], []⟩

/-- The error entry a settled outcome contributes (lines 472 and 475): keyed
by the dispatched URL, with the JS `||` fallback messages. -/
def errEntryOut (item : FrontierItem) : ScrapeOutcome → Option (String × String)
  | ScrapeOutcome.rejected msg => some (item.url, jsOrElse msg "Failed to scrape")
  | ScrapeOutcome.fulfilled page =>
    if errTruthy page.error = true then
      some (item.url, jsOrElse page.error "Unknown error")
    else none

/-- The page entry a settled outcome contributes (line 457). -/
def pageEntryOut : ScrapeOutcome → Option ScrapedPageM
  | ScrapeOutcome.rejected _ => none
  | ScrapeOutcome.fulfilled page =>
    if errTruthy page.error = true then none else some page

/-- `errEntryOut` against the oracle. -/
def errEntry (o : String → ScrapeOutcome) (item : FrontierItem) :
    Option (String × String) :=
  errEntryOut item (o item.url)

/-- `pageEntryOut` against the oracle. -/
def pageEntry (o : String → ScrapeOutcome) (item : FrontierItem) :
    Option ScrapedPageM :=
  pageEntryOut (o item.url)

theorem mem_insertSet_of_mem (x y : String) (s : List String) (h : x ∈ s) :
    x ∈ insertSet y s := by
  unfold insertSet
  split
  · exact h
  · exact List.mem_cons_of_mem _ h

theorem mem_insertSet_self (y : String) (s : List String) : y ∈ insertSet y s := by
  unfold insertSet
  split
  · assumption
  · exact List.mem_cons_self _ _

theorem mem_insertSet (x y : String) (s : List String) :
    x ∈ insertSet y s ↔ x = y ∨ x ∈ s := by
  unfold insertSet
  split
  · constructor
    · exact Or.inr
    · rintro (rfl | h)
      · assumption
      · exact h
  · exact List.mem_cons

/-- The batch-collection loop never lengthens the remaining queue. -/
theorem takeBatch_queue_le (cfg : CrawlCfg) (n : Nat) :
    ∀ (queue : List FrontierItem) (visited queued : List String)
      (batch : List FrontierItem),
    (takeBatch cfg n queue visited queued batch).queue.length ≤ queue.length := by
  intro queue
  induction queue with
  | nil =>
    intro visited queued batch
    simp [takeBatch]
  | cons item rest ih =>
    intro visited queued batch
    simp only [takeBatch]
    by_cases hg : batch.length < cfg.concurrency ∧ n + batch.length < cfg.maxPages
    · rw [if_pos hg]
      by_cases hs : item.url ∈ visited ∨ cfg.maxDepth < item.depth
      · rw [if_pos hs]
        exact le_trans (ih _ _ _) (Nat.le_succ _)
      · rw [if_neg hs]
        exact le_trans (ih _ _ _) (Nat.le_succ _)
    · rw [if_neg hg]

/-- Main invariants of the batch-collection loop, relative to the accumulator
hypotheses that hold trivially at the `batch = []` call site: the visited set
only grows, every batch member is visited-marked, members not inherited from
the accumulator were unvisited at entry, batch URLs are duplicate-free, the
`pages.length + batch.length < maxPages` guard keeps the batch within budget,
every batch member respects `maxDepth`, and the remaining queue consists of
entry-queue items. -/
theorem takeBatch_spec (cfg : CrawlCfg) (n : Nat) :
    ∀ (queue : List FrontierItem) (visited queued : List String)
      (batch : List FrontierItem) (r : BatchResult),
    takeBatch cfg n queue visited queued batch = r →
    (∀ b ∈ batch, b.url ∈ visited) →
    (batch.map FrontierItem.url).Nodup →
    n + batch.length ≤ cfg.maxPages →
    (∀ b ∈ batch, b.depth ≤ cfg.maxDepth) →
    (∀ x ∈ visited, x ∈ r.visited) ∧
    (∀ b ∈ r.batch, b.url ∈ r.visited) ∧
    (∀ b ∈ r.batch, b ∈ batch ∨ ¬ b.url ∈ visited) ∧
    (r.batch.map FrontierItem.url).Nodup ∧
    n + r.batch.length ≤ cfg.maxPages ∧
    (∀ b ∈ r.batch, b.depth ≤ cfg.maxDepth) ∧
    (∀ x ∈ r.queue, x ∈ queue) := by
  intro queue
  induction queue with
  | nil =>
    intro visited queued batch r hr hb hnd hlen hdep
    simp only [takeBatch] at hr
    subst hr
    exact ⟨fun x hx => hx, hb, fun b hb' => Or.inl hb', hnd, hlen, hdep,
      fun x hx => hx⟩
  | cons item rest ih =>
    intro visited queued batch r hr hb hnd hlen hdep
    simp only [takeBatch] at hr
    by_cases hg : batch.length < cfg.concurrency ∧ n + batch.length < cfg.maxPages
    · rw [if_pos hg] at hr
      by_cases hs : item.url ∈ visited ∨ cfg.maxDepth < item.depth
      · rw [if_pos hs] at hr
        obtain ⟨c1, c2, c3, c4, c5, c6, c7⟩ := ih _ _ _ _ hr hb hnd hlen hdep
        exact ⟨c1, c2, c3, c4, c5, c6, fun x hx => List.mem_cons_of_mem _ (c7 x hx)⟩
      · rw [if_neg hs] at hr
        push_neg at hs
        have hb' : ∀ b ∈ batch ++ [item], b.url ∈ insertSet item.url visited := by
          intro b hbm
          rcases List.mem_append.mp hbm with h | h
          · exact mem_insertSet_of_mem _ _ _ (hb b h)
          · rcases List.mem_singleton.mp h with rfl
            exact mem_insertSet_self _ _
        have hnd' : ((batch ++ [item]).map FrontierItem.url).Nodup := by
          rw [List.map_append, List.nodup_append]
          refine ⟨hnd, List.nodup_singleton _, ?_⟩
          intro a ha ha2
          rcases List.mem_map.mp ha with ⟨b, hbm, rfl⟩
          rcases List.mem_singleton.mp (by simpa using ha2) with h
          exact hs.1 (h ▸ hb b hbm)
        have hlen' : n + (batch ++ [item]).length ≤ cfg.maxPages := by
          rw [List.length_append]
          simpa using hg.2
        have hdep' : ∀ b ∈ batch ++ [item], b.depth ≤ cfg.maxDepth := by
          intro b hbm
          rcases List.mem_append.mp hbm with h | h
          · exact hdep b h
          · rcases List.mem_singleton.mp h with rfl
            exact hs.2
        obtain ⟨c1, c2, c3, c4, c5, c6, c7⟩ := ih _ _ _ _ hr hb' hnd' hlen' hdep'
        refine ⟨fun x hx => c1 x (mem_insertSet_of_mem _ _ _ hx), c2, ?_, c4, c5, c6,
          fun x hx => List.mem_cons_of_mem _ (c7 x hx)⟩
        intro b hbm
        rcases c3 b hbm with h | h
        · rcases List.mem_append.mp h with h2 | h2
          · exact Or.inl h2
          · rcases List.mem_singleton.mp h2 with rfl
            exact Or.inr hs.1
        · exact Or.inr (fun hv => h (mem_insertSet_of_mem _ _ _ hv))
    · rw [if_neg hg] at hr
      subst hr
      exact ⟨fun x hx => hx, hb, fun b hb' => Or.inl hb', hnd, hlen, hdep,
        fun x hx => hx⟩

/-- With room in the batch and the page budget, the first queue item is always
consumed, so the remaining queue is strictly shorter. -/
theorem takeBatch_first (cfg : CrawlCfg) (n : Nat) (item : FrontierItem)
    (rest : List FrontierItem) (visited queued : List String)
    (hc : 0 < cfg.concurrency) (hp : n < cfg.maxPages) :
    (takeBatch cfg n (item :: rest) visited queued []).queue.length ≤ rest.length := by
  simp only [takeBatch]
  rw [if_pos ⟨by simpa using hc, by simpa using hp⟩]
  by_cases hs : item.url ∈ visited ∨ cfg.maxDepth < item.depth
  · rw [if_pos hs]
    exact takeBatch_queue_le cfg n rest _ _ _
  · rw [if_neg hs]
    exact takeBatch_queue_le cfg n rest _ _ _

/-- Link harvesting touches only `queue` and `queued`. -/
theorem harvestLinks_frame (cfg : CrawlCfg) (d : Nat) :
    ∀ (links : List String) (st : CrawlState),
    (harvestLinks cfg d links st).visited = st.visited ∧
    (harvestLinks cfg d links st).pages = st.pages ∧
    (harvestLinks cfg d links st).errors = st.errors ∧
    (harvestLinks cfg d links st).dispatched = st.dispatched ∧
    (harvestLinks cfg d links st).maxDepthReached = st.maxDepthReached := by
  intro links
  induction links with
  | nil =>
    intro st
    simp [harvestLinks]
  | cons link rest ih =>
    intro st
    simp only [harvestLinks]
    split
    · simpa using ih _
    · exact ih st

/-- Every queue item after link harvesting was already queued or sits at the
harvest depth `d + 1`. -/
theorem harvestLinks_queue (cfg : CrawlCfg) (d : Nat) :
    ∀ (links : List String) (st : CrawlState),
    ∀ x ∈ (harvestLinks cfg d links st).queue, x ∈ st.queue ∨ x.depth = d + 1 := by
  intro links
  induction links with
  | nil =>
    intro st x hx
    exact Or.inl hx
  | cons link rest ih =>
    intro st x hx
    simp only [harvestLinks] at hx
    split at hx
    · rcases ih _ x hx with h | h
      · simp only [List.mem_append] at h
        rcases h with h | h
        · exact Or.inl h
        · rcases List.mem_singleton.mp h with rfl
          exact Or.inr rfl
      · exact Or.inr h
    · exact ih st x hx

/-- Behaviour of one settled result: the ghost trace is untouched, the visited
set only grows, exactly the `errEntryOut`/`pageEntryOut` entries are appended,
new queue items come from harvesting at `depth + 1` strictly below `maxDepth`,
and without a page entry the queue is untouched. -/
theorem processOutcome_spec (cfg : CrawlCfg) (item : FrontierItem) (st : CrawlState)
    (out : ScrapeOutcome) :
    (processOutcome cfg item st out).dispatched = st.dispatched ∧
    (∀ x ∈ st.visited, x ∈ (processOutcome cfg item st out).visited) ∧
    (processOutcome cfg item st out).errors = st.errors ++ (errEntryOut item out).toList ∧
    (processOutcome cfg item st out).pages = st.pages ++ (pageEntryOut out).toList ∧
    (∀ x ∈ (processOutcome cfg item st out).queue,
        x ∈ st.queue ∨ (item.depth < cfg.maxDepth ∧ x.depth = item.depth + 1)) ∧
    (pageEntryOut out = none → (processOutcome cfg item st out).queue = st.queue) := by
  cases out with
  | rejected msg =>
    exact ⟨rfl, fun x hx => hx, by simp [processOutcome, errEntryOut],
      by simp [processOutcome, pageEntryOut], fun x hx => Or.inl hx, fun _ => rfl⟩
  | fulfilled page =>
    by_cases he : errTruthy page.error = true
    · have hred : processOutcome cfg item st (ScrapeOutcome.fulfilled page)
          = { st with
                visited := insertSet (normalizeUrlForDedupe page.url) st.visited,
                errors := st.errors ++ [(item.url, jsOrElse page.error "Unknown error")] } := by
        simp only [processOutcome]
        rw [if_pos he]
      rw [hred]
      refine ⟨rfl, fun x hx => mem_insertSet_of_mem _ _ _ hx, by simp [errEntryOut, he],
        by simp [pageEntryOut, he], fun x hx => Or.inl hx, fun _ => rfl⟩
    · by_cases hd : item.depth < cfg.maxDepth
      · have hred : processOutcome cfg item st (ScrapeOutcome.fulfilled page)
            = harvestLinks cfg item.depth page.links
                { st with
                    visited := insertSet (normalizeUrlForDedupe page.url) st.visited,
                    pages := st.pages ++ [page],
                    maxDepthReached := max st.maxDepthReached item.depth } := by
          simp only [processOutcome]
          rw [if_neg he, if_pos hd]
        rw [hred]
        have hf := harvestLinks_frame cfg item.depth page.links
          { st with
              visited := insertSet (normalizeUrlForDedupe page.url) st.visited,
              pages := st.pages ++ [page],
              maxDepthReached := max st.maxDepthReached item.depth }
        have hq := harvestLinks_queue cfg item.depth page.links
          { st with
              visited := insertSet (normalizeUrlForDedupe page.url) st.visited,
              pages := st.pages ++ [page],
              maxDepthReached := max st.maxDepthReached item.depth }
        refine ⟨hf.2.2.2.1, ?_, ?_, ?_, ?_, ?_⟩
        · intro x hx
          rw [hf.1]
          exact mem_insertSet_of_mem _ _ _ hx
        · rw [hf.2.2.1]
          simp [errEntryOut, he]
        · rw [hf.2.1]
          simp [pageEntryOut, he]
        · intro x hx
          rcases hq x hx with h | h
          · exact Or.inl h
          · exact Or.inr ⟨hd, h⟩
        · intro hnone
          exfalso
          simp [pageEntryOut, he] at hnone
      · have hred : processOutcome cfg item st (ScrapeOutcome.fulfilled page)
            = { st with
                  visited := insertSet (normalizeUrlForDedupe page.url) st.visited,
                  pages := st.pages ++ [page],
                  maxDepthReached := max st.maxDepthReached item.depth } := by
          simp only [processOutcome]
          rw [if_neg he, if_neg hd]
        rw [hred]
        exact ⟨rfl, fun x hx => mem_insertSet_of_mem _ _ _ hx, by simp [errEntryOut, he],
          by simp [pageEntryOut, he], fun x hx => Or.inl hx, fun _ => rfl⟩

/-- `processOutcome_spec` read through the oracle. -/
theorem processOne_spec (cfg : CrawlCfg) (o : String → ScrapeOutcome)
    (item : FrontierItem) (st : CrawlState) :
    (processOne cfg o item st).dispatched = st.dispatched ∧
    (∀ x ∈ st.visited, x ∈ (processOne cfg o item st).visited) ∧
    (processOne cfg o item st).errors = st.errors ++ (errEntry o item).toList ∧
    (processOne cfg o item st).pages = st.pages ++ (pageEntry o item).toList ∧
    (∀ x ∈ (processOne cfg o item st).queue,
        x ∈ st.queue ∨ (item.depth < cfg.maxDepth ∧ x.depth = item.depth + 1)) ∧
    (pageEntry o item = none → (processOne cfg o item st).queue = st.queue) :=
  processOutcome_spec cfg item st (o item.url)

/-- The results loop: the ghost trace is untouched, the visited set only
grows, and exactly the per-item error and page entries are appended, in batch
order; new queue items stem from some batch item strictly below `maxDepth`. -/
theorem processResults_spec (cfg : CrawlCfg) (o : String → ScrapeOutcome) :
    ∀ (batch : List FrontierItem) (st : CrawlState),
    (processResults cfg o batch st).dispatched = st.dispatched ∧
    (∀ x ∈ st.visited, x ∈ (processResults cfg o batch st).visited) ∧
    (processResults cfg o batch st).errors = st.errors ++ batch.filterMap (errEntry o) ∧
    (processResults cfg o batch st).pages = st.pages ++ batch.filterMap (pageEntry o) ∧
    (∀ x ∈ (processResults cfg o batch st).queue,
        x ∈ st.queue ∨ ∃ i ∈ batch, i.depth < cfg.maxDepth ∧ x.depth = i.depth + 1) := by
  intro batch
  induction batch with
  | nil =>
    intro st
    exact ⟨rfl, fun x hx => hx, by simp [processResults], by simp [processResults],
      fun x hx => Or.inl hx⟩
  | cons item rest ih =>
    intro st
    obtain ⟨p1, p2, p3, p4, p5, p6⟩ := processOne_spec cfg o item st
    obtain ⟨q1, q2, q3, q4, q5⟩ := ih (processOne cfg o item st)
    have hred : processResults cfg o (item :: rest) st
        = processResults cfg o rest (processOne cfg o item st) := rfl
    rw [hred]
    refine ⟨q1.trans p1, fun x hx => q2 x (p2 x hx), ?_, ?_, ?_⟩
    · rw [q3, p3]
      cases hm : errEntry o item <;> simp [hm, List.filterMap_cons]
    · rw [q4, p4]
      cases hm : pageEntry o item <;> simp [hm, List.filterMap_cons]
    · intro x hx
      rcases q5 x hx with h | ⟨i, hi, hlt, hdx⟩
      · rcases p5 x h with h2 | ⟨hlt, hdx⟩
        · exact Or.inl h2
        · exact Or.inr ⟨item, List.mem_cons_self _ _, hlt, hdx⟩
      · exact Or.inr ⟨i, List.mem_cons_of_mem _ hi, hlt, hdx⟩

/-- When the results loop accepted no page, it also enqueued nothing. -/
theorem processResults_queue_of_no_pages (cfg : CrawlCfg) (o : String → ScrapeOutcome) :
    ∀ (batch : List FrontierItem) (st : CrawlState),
    (processResults cfg o batch st).pages.length = st.pages.length →
    (processResults cfg o batch st).queue = st.queue := by
  intro batch
  induction batch with
  | nil =>
    intro st _
    rfl
  | cons item rest ih =>
    intro st h
    obtain ⟨p1, p2, p3, p4, p5, p6⟩ := processOne_spec cfg o item st
    have hred : processResults cfg o (item :: rest) st
        = processResults cfg o rest (processOne cfg o item st) := rfl
    rw [hred] at h ⊢
    have hrest := (processResults_spec cfg o rest (processOne cfg o item st)).2.2.2.1
    have hlen : st.pages.length + (pageEntry o item).toList.length
        + (rest.filterMap (pageEntry o)).length = st.pages.length := by
      have h2 := h
      rw [hrest, p4] at h2
      simpa [List.length_append, Nat.add_assoc] using h2
    have hnone : pageEntry o item = none := by
      cases hm : pageEntry o item
      · rfl
      · rw [hm] at hlen
        simp at hlen
        omega
    have hq : (processOne cfg o item st).queue = st.queue := p6 hnone
    have hplen : (processOne cfg o item st).pages.length = st.pages.length := by
      rw [p4, hnone]
      simp
    rw [ih (processOne cfg o item st) (by omega), hq]

/-- Every batch item contributes exactly one entry, to `errors` or to
`pages`. -/
theorem entries_length (o : String → ScrapeOutcome) :
    ∀ batch : List FrontierItem,
    (batch.filterMap (errEntry o)).length + (batch.filterMap (pageEntry o)).length
      = batch.length := by
  intro batch
  induction batch with
  | nil => simp
  | cons item rest ih =>
    cases ho : o item.url with
    | rejected msg =>
      have he : errEntry o item = some (item.url, jsOrElse msg "Failed to scrape") := by
        simp [errEntry, errEntryOut, ho]
      have hp : pageEntry o item = none := by
        simp [pageEntry, pageEntryOut, ho]
      simp only [List.filterMap_cons, he, hp, List.length_cons]
      omega
    | fulfilled page =>
      by_cases hb : errTruthy page.error = true
      · have he : errEntry o item = some (item.url, jsOrElse page.error "Unknown error") := by
          simp [errEntry, errEntryOut, ho, hb]
        have hp : pageEntry o item = none := by
          simp [pageEntry, pageEntryOut, ho, hb]
        simp only [List.filterMap_cons, he, hp, List.length_cons]
        omega
      · have he : errEntry o item = none := by
          simp [errEntry, errEntryOut, ho, hb]
        have hp : pageEntry o item = some page := by
          simp [pageEntry, pageEntryOut, ho, hb]
        simp only [List.filterMap_cons, he, hp, List.length_cons]
        omega

theorem crawlLoop_succ_pos (cfg : CrawlCfg) (o : String → ScrapeOutcome) (fuel : Nat)
    (st : CrawlState) (h : st.queue ≠ [] ∧ st.pages.length < cfg.maxPages) :
    crawlLoop cfg o (fuel + 1) st = crawlLoop cfg o fuel (crawlBody cfg o st) := by
  simp only [crawlLoop]
  rw [if_pos h]

theorem crawlLoop_succ_neg (cfg : CrawlCfg) (o : String → ScrapeOutcome) (fuel : Nat)
    (st : CrawlState) (h : ¬ (st.queue ≠ [] ∧ st.pages.length < cfg.maxPages)) :
    crawlLoop cfg o (fuel + 1) st = some st := by
  simp only [crawlLoop]
  rw [if_neg h]

/-- Run invariant of the outer loop, relative to a fixed URL set `V` contained
in the entry visited set: `V` stays visited, every dispatched item is
visited-marked, the dispatch trace stays duplicate-free per URL and never
names a URL of `V` beyond those it already named, and each dispatch accounts
for exactly one new entry across `pages` and `errors`. -/
theorem crawlLoop_inv (cfg : CrawlCfg) (o : String → ScrapeOutcome) (V : List String) :
    ∀ (fuel : Nat) (st st' : CrawlState),
    crawlLoop cfg o fuel st = some st' →
    (∀ x ∈ V, x ∈ st.visited) →
    (∀ i ∈ st.dispatched, i.url ∈ st.visited) →
    (st.dispatched.map FrontierItem.url).Nodup →
    (∀ i ∈ st.dispatched, ¬ i.url ∈ V) →
    (∀ x ∈ V, x ∈ st'.visited) ∧
    (∀ i ∈ st'.dispatched, i.url ∈ st'.visited) ∧
    (st'.dispatched.map FrontierItem.url).Nodup ∧
    (∀ i ∈ st'.dispatched, ¬ i.url ∈ V) ∧
    st'.pages.length + st'.errors.length + st.dispatched.length
      = st.pages.length + st.errors.length + st'.dispatched.length := by
  intro fuel
  induction fuel with
  | zero =>
    intro st st' hrun
    exact absurd hrun (by simp [crawlLoop])
  | succ fuel ih =>
    intro st st' hrun h1 h2 h3 h4
    by_cases hg : st.queue ≠ [] ∧ st.pages.length < cfg.maxPages
    · rw [crawlLoop_succ_pos cfg o fuel st hg] at hrun
      set r := takeBatch cfg st.pages.length st.queue st.visited st.queued [] with hrdef
      obtain ⟨ta, tb, tc, td, te, tf, tg⟩ :=
        takeBatch_spec cfg st.pages.length st.queue st.visited st.queued [] r
          hrdef.symm (by simp) (by simp) (by simpa using hg.2.le) (by simp)
      set st1 : CrawlState :=
        { st with
            queue := r.queue, visited := r.visited, queued := r.queued,
            dispatched := st.dispatched ++ r.batch } with hst1
      have hbody : crawlBody cfg o st = processResults cfg o r.batch st1 := rfl
      rw [hbody] at hrun
      obtain ⟨q1, q2, q3, q4, q5⟩ := processResults_spec cfg o r.batch st1
      have hbnew : ∀ b ∈ r.batch, ¬ b.url ∈ st.visited := by
        intro b hb
        rcases tc b hb with h | h
        · exact absurd h (List.not_mem_nil b)
        · exact h
      have h1' : ∀ x ∈ V, x ∈ (processResults cfg o r.batch st1).visited :=
        fun x hx => q2 x (ta x (h1 x hx))
      have h2' : ∀ i ∈ (processResults cfg o r.batch st1).dispatched,
          i.url ∈ (processResults cfg o r.batch st1).visited := by
        rw [q1]
        intro i hi
        rcases List.mem_append.mp hi with h | h
        · exact q2 _ (ta _ (h2 i h))
        · exact q2 _ (tb i h)
      have h3' : ((processResults cfg o r.batch st1).dispatched.map
          FrontierItem.url).Nodup := by
        rw [q1]
        show ((st.dispatched ++ r.batch).map FrontierItem.url).Nodup
        rw [List.map_append, List.nodup_append]
        refine ⟨h3, td, ?_⟩
        intro a ha ha2
        rcases List.mem_map.mp ha with ⟨i, hi, rfl⟩
        rcases List.mem_map.mp ha2 with ⟨b, hb, hbe⟩
        exact hbnew b hb (hbe ▸ h2 i hi)
      have h4' : ∀ i ∈ (processResults cfg o r.batch st1).dispatched, ¬ i.url ∈ V := by
        rw [q1]
        intro i hi
        rcases List.mem_append.mp hi with h | h
        · exact h4 i h
        · exact fun hv => hbnew i h (h1 _ hv)
      obtain ⟨c1, c2, c3, c4, c5⟩ := ih _ st' hrun h1' h2' h3' h4'
      refine ⟨c1, c2, c3, c4, ?_⟩
      have e1 : (processResults cfg o r.batch st1).pages.length
          = st.pages.length + (r.batch.filterMap (pageEntry o)).length := by
        rw [q4]
        simp [List.length_append]
      have e2 : (processResults cfg o r.batch st1).errors.length
          = st.errors.length + (r.batch.filterMap (errEntry o)).length := by
        rw [q3]
        simp [List.length_append]
      have e3 : (processResults cfg o r.batch st1).dispatched.length
          = st.dispatched.length + r.batch.length := by
        rw [q1]
        show (st.dispatched ++ r.batch).length = _
        simp [List.length_append]
      have e4 := entries_length o r.batch
      omega
    · rw [crawlLoop_succ_neg cfg o fuel st hg] at hrun
      have hst : st = st' := by
        simpa using hrun
      subst hst
      exact ⟨h1, h2, h3, h4, by omega⟩

/-- Depth invariant of the outer loop: dispatched items never exceed
`maxDepth`, and queue items are entry-queue items or respect `maxDepth`. -/
theorem crawlLoop_depth (cfg : CrawlCfg) (o : String → ScrapeOutcome)
    (Q0 : List FrontierItem) :
    ∀ (fuel : Nat) (st st' : CrawlState),
    crawlLoop cfg o fuel st = some st' →
    (∀ i ∈ st.dispatched, i.depth ≤ cfg.maxDepth) →
    (∀ i ∈ st.queue, i ∈ Q0 ∨ i.depth ≤ cfg.maxDepth) →
    (∀ i ∈ st'.dispatched, i.depth ≤ cfg.maxDepth) ∧
    (∀ i ∈ st'.queue, i ∈ Q0 ∨ i.depth ≤ cfg.maxDepth) := by
  intro fuel
  induction fuel with
  | zero =>
    intro st st' hrun
    exact absurd hrun (by simp [crawlLoop])
  | succ fuel ih =>
    intro st st' hrun h1 h2
    by_cases hg : st.queue ≠ [] ∧ st.pages.length < cfg.maxPages
    · rw [crawlLoop_succ_pos cfg o fuel st hg] at hrun
      set r := takeBatch cfg st.pages.length st.queue st.visited st.queued [] with hrdef
      obtain ⟨ta, tb, tc, td, te, tf, tg⟩ :=
        takeBatch_spec cfg st.pages.length st.queue st.visited st.queued [] r
          hrdef.symm (by simp) (by simp) (by simpa using hg.2.le) (by simp)
      set st1 : CrawlState :=
        { st with
            queue := r.queue, visited := r.visited, queued := r.queued,
            dispatched := st.dispatched ++ r.batch } with hst1
      have hbody : crawlBody cfg o st = processResults cfg o r.batch st1 := rfl
      rw [hbody] at hrun
      obtain ⟨q1, q2, q3, q4, q5⟩ := processResults_spec cfg o r.batch st1
      have h1' : ∀ i ∈ (processResults cfg o r.batch st1).dispatched,
          i.depth ≤ cfg.maxDepth := by
        rw [q1]
        intro i hi
        rcases List.mem_append.mp hi with h | h
        · exact h1 i h
        · exact tf i h
      have h2' : ∀ i ∈ (processResults cfg o r.batch st1).queue,
          i ∈ Q0 ∨ i.depth ≤ cfg.maxDepth := by
        intro i hi
        rcases q5 i hi with h | ⟨b, hb, hlt, hdx⟩
        · exact h2 i (tg i h)
        · right
          rw [hdx]
          exact hlt
      exact ih _ st' hrun h1' h2'
    · rw [crawlLoop_succ_neg cfg o fuel st hg] at hrun
      have hst : st = st' := by
        simpa using hrun
      subst hst
      exact ⟨h1, h2⟩

/-- The loop body never lets `pages` overrun `maxPages`: any state the loop
returns has at most `max maxPages entryPages` pages (the entry count matters
only when hydration already exceeded the budget). -/
theorem crawlLoop_pages_bound (cfg : CrawlCfg) (o : String → ScrapeOutcome) :
    ∀ (fuel : Nat) (st st' : CrawlState),
    crawlLoop cfg o fuel st = some st' →
    st'.pages.length ≤ max cfg.maxPages st.pages.length := by
  intro fuel
  induction fuel with
  | zero =>
    intro st st' hrun
    exact absurd hrun (by simp [crawlLoop])
  | succ fuel ih =>
    intro st st' hrun
    by_cases hg : st.queue ≠ [] ∧ st.pages.length < cfg.maxPages
    · rw [crawlLoop_succ_pos cfg o fuel st hg] at hrun
      set r := takeBatch cfg st.pages.length st.queue st.visited st.queued [] with hrdef
      obtain ⟨ta, tb, tc, td, te, tf, tg⟩ :=
        takeBatch_spec cfg st.pages.length st.queue st.visited st.queued [] r
          hrdef.symm (by simp) (by simp) (by simpa using hg.2.le) (by simp)
      set st1 : CrawlState :=
        { st with
            queue := r.queue, visited := r.visited, queued := r.queued,
            dispatched := st.dispatched ++ r.batch } with hst1
      have hbody : crawlBody cfg o st = processResults cfg o r.batch st1 := rfl
      rw [hbody] at hrun
      have e1 : (processResults cfg o r.batch st1).pages.length
          = st.pages.length + (r.batch.filterMap (pageEntry o)).length := by
        rw [(processResults_spec cfg o r.batch st1).2.2.2.1]
        simp [List.length_append]
      have e2 : (r.batch.filterMap (pageEntry o)).length ≤ r.batch.length :=
        List.length_filterMap_le _ _
      have hmid : (processResults cfg o r.batch st1).pages.length ≤ cfg.maxPages := by
        omega
      have hfin := ih _ st' hrun
      rw [max_eq_left hmid] at hfin
      exact hfin.trans (le_max_left _ _)
    · rw [crawlLoop_succ_neg cfg o fuel st hg] at hrun
      have hst : st = st' := by
        simpa using hrun
      subst hst
      exact le_max_right _ _

/-- One iteration makes progress: the page list never shrinks, and an
iteration that accepted no page strictly shortened the queue (with at least
one concurrency slot, a nonempty queue, and room in the page budget, the
first queue item is always consumed). -/
theorem crawlBody_progress (cfg : CrawlCfg) (o : String → ScrapeOutcome) (st : CrawlState)
    (hc : 1 ≤ cfg.concurrency) (hq : st.queue ≠ []) (hp : st.pages.length < cfg.maxPages) :
    st.pages.length ≤ (crawlBody cfg o st).pages.length ∧
    ((crawlBody cfg o st).pages.length = st.pages.length →
      (crawlBody cfg o st).queue.length < st.queue.length) := by
  set r := takeBatch cfg st.pages.length st.queue st.visited st.queued [] with hrdef
  set st1 : CrawlState :=
    { st with
        queue := r.queue, visited := r.visited, queued := r.queued,
        dispatched := st.dispatched ++ r.batch } with hst1
  have hbody : crawlBody cfg o st = processResults cfg o r.batch st1 := rfl
  rw [hbody]
  have e1 : (processResults cfg o r.batch st1).pages.length
      = st.pages.length + (r.batch.filterMap (pageEntry o)).length := by
    rw [(processResults_spec cfg o r.batch st1).2.2.2.1]
    simp [List.length_append]
  constructor
  · rw [e1]
    exact Nat.le_add_right _ _
  · intro heq
    have hqq : (processResults cfg o r.batch st1).queue = st1.queue :=
      processResults_queue_of_no_pages cfg o r.batch st1 (by
        rw [e1] at heq
        have hsp : st1.pages.length = st.pages.length := rfl
        rw [e1, hsp]
        omega)
    rw [hqq]
    show r.queue.length < st.queue.length
    obtain ⟨item, rest, hql⟩ : ∃ item rest, st.queue = item :: rest := by
      cases hqe : st.queue with
      | nil => exact absurd hqe hq
      | cons a l => exact ⟨a, l, rfl⟩
    have hfirst : (takeBatch cfg st.pages.length (item :: rest)
        st.visited st.queued []).queue.length ≤ rest.length :=
      takeBatch_first cfg st.pages.length item rest st.visited st.queued hc hp
    rw [hrdef, hql]
    simpa using Nat.lt_succ_of_le hfirst

/-- Termination by fuel: with at least one concurrency slot, a fuel of the
form needed always exists — lexicographic descent on (remaining page budget,
queue length). -/
theorem crawlLoop_term (cfg : CrawlCfg) (o : String → ScrapeOutcome)
    (hc : 1 ≤ cfg.concurrency) :
    ∀ (k q : Nat) (st : CrawlState),
    cfg.maxPages - st.pages.length ≤ k → st.queue.length ≤ q →
    ∃ fuel st', crawlLoop cfg o fuel st = some st' := by
  intro k
  induction k with
  | zero =>
    intro q st hk _
    refine ⟨1, st, crawlLoop_succ_neg cfg o 0 st ?_⟩
    exact fun h => absurd h.2 (by omega)
  | succ k ihk =>
    intro q
    induction q with
    | zero =>
      intro st hk hq
      refine ⟨1, st, crawlLoop_succ_neg cfg o 0 st ?_⟩
      have hnil : st.queue = [] := List.length_eq_zero.mp (Nat.le_zero.mp hq)
      exact fun h => h.1 hnil
    | succ q ihq =>
      intro st hk hq
      by_cases hg : st.queue ≠ [] ∧ st.pages.length < cfg.maxPages
      · have hprog := crawlBody_progress cfg o st hc hg.1 hg.2
        by_cases hinc : st.pages.length < (crawlBody cfg o st).pages.length
        · obtain ⟨fuel, st', hrun⟩ := ihk (crawlBody cfg o st).queue.length
            (crawlBody cfg o st) (by omega) le_rfl
          exact ⟨fuel + 1, st', by rw [crawlLoop_succ_pos cfg o fuel st hg]; exact hrun⟩
        · have heq : (crawlBody cfg o st).pages.length = st.pages.length :=
            le_antisymm (Nat.not_lt.mp hinc) hprog.1
          have hql := hprog.2 heq
          obtain ⟨fuel, st', hrun⟩ := ihq (crawlBody cfg o st) (by omega) (by omega)
          exact ⟨fuel + 1, st', by rw [crawlLoop_succ_pos cfg o fuel st hg]; exact hrun⟩
      · exact ⟨1, st, crawlLoop_succ_neg cfg o 0 st hg⟩

theorem seedPush_visited (cfg : CrawlCfg) (s : String) (st : CrawlState) :
    (seedPush cfg s st).visited = st.visited := by
  unfold seedPush
  split <;> rfl

theorem seedPush_dispatched (cfg : CrawlCfg) (s : String) (st : CrawlState) :
    (seedPush cfg s st).dispatched = st.dispatched := by
  unfold seedPush
  split <;> rfl

/-- The guarded seed push only enqueues an unvisited URL. -/
theorem seedPush_queue_mem (cfg : CrawlCfg) (s : String) (st : CrawlState) :
    ∀ i ∈ (seedPush cfg s st).queue, i ∈ st.queue ∨ ¬ i.url ∈ st.visited := by
  unfold seedPush
  by_cases h : shouldQueue cfg (normalizeUrlForDedupe s) = true
      ∧ ¬ normalizeUrlForDedupe s ∈ st.queued ∧ ¬ normalizeUrlForDedupe s ∈ st.visited
  · rw [if_pos h]
    intro i hi
    rcases List.mem_append.mp hi with h2 | h2
    · exact Or.inl h2
    · rcases List.mem_singleton.mp h2 with rfl
      exact Or.inr h.2.2
  · rw [if_neg h]
    exact fun i hi => Or.inl hi

theorem seedStart_visited (cfg : CrawlCfg) (s : String) (st : CrawlState) :
    (seedStart cfg s st).visited = st.visited :=
  seedPush_visited cfg s st

theorem seedStart_dispatched (cfg : CrawlCfg) (s : String) (st : CrawlState) :
    (seedStart cfg s st).dispatched = st.dispatched :=
  seedPush_dispatched cfg s st

theorem seedStart_queue_mem (cfg : CrawlCfg) (s : String) (st : CrawlState) :
    ∀ i ∈ (seedStart cfg s st).queue, i ∈ st.queue ∨ ¬ i.url ∈ st.visited :=
  seedPush_queue_mem cfg s st

/-- C1: over any run of the crawl loop whose entry dispatch trace is
duplicate-free and visited-marked (vacuously so on a fresh start), the scrape
operation is dispatched at most once per canonical URL — the final dispatch
trace is still duplicate-free — every dispatched URL is in the final visited
set, and each dispatch accounts for exactly one new entry across `pages` and
`errors` combined, so a URL reached from several pages yields one visit and
at most one result entry. -/
theorem crawl_dispatch_once (cfg : CrawlCfg) (o : String → ScrapeOutcome)
    (fuel : Nat) (st st' : CrawlState)
    (hrun : crawlLoop cfg o fuel st = some st')
    (hnd : (st.dispatched.map FrontierItem.url).Nodup)
    (hv : ∀ i ∈ st.dispatched, i.url ∈ st.visited) :
    (st'.dispatched.map FrontierItem.url).Nodup ∧
    (∀ i ∈ st'.dispatched, i.url ∈ st'.visited) ∧
    st'.pages.length + st'.errors.length + st.dispatched.length
      = st.pages.length + st.errors.length + st'.dispatched.length := by
  obtain ⟨c1, c2, c3, c4, c5⟩ :=
    crawlLoop_inv cfg o [] fuel st st' hrun (by simp) hv hnd (by simp)
  exact ⟨c3, c2, c5⟩

def wOracle : String → ScrapeOutcome := fun u =>
  if u = "http://h/" then
    ScrapeOutcome.fulfilled ⟨"http://h/", ["http://h/a", "http://h/b"], none⟩
  else if u = "http://h/a" then
    ScrapeOutcome.fulfilled ⟨"http://h/a", ["http://h/c"], none⟩
  else if u = "http://h/b" then
    ScrapeOutcome.fulfilled ⟨"http://h/b", ["http://h/c"], none⟩
  else ScrapeOutcome.fulfilled ⟨u, [], none⟩

def wCfgA : CrawlCfg := ⟨2, 10, 2, "http://h", [], [], none⟩

def wStA : CrawlState := seedStart wCfgA "http://h/" initCrawlState

def wStA' : CrawlState :=
  ⟨["http://h/c", "http://h/b", "http://h/a", "http://h/"], [],
   [⟨"http://h/", ["http://h/a", "http://h/b"], none⟩,
    ⟨"http://h/a", ["http://h/c"], none⟩,
    ⟨"http://h/b", ["http://h/c"], none⟩,
    ⟨"http://h/c", [], none⟩],
   [], 2, [],
   [⟨"http://h/", 0⟩, ⟨"http://h/a", 1⟩, ⟨"http://h/b", 1⟩, ⟨"http://h/c", 2⟩]⟩

/-- Witness for the C1 theorem: a site where pages `a` and `b` both link to
`c`; the run dispatches `c` once. -/
theorem crawl_dispatch_once_witness :
    (wStA'.dispatched.map FrontierItem.url).Nodup ∧
    (∀ i ∈ wStA'.dispatched, i.url ∈ wStA'.visited) ∧
    wStA'.pages.length + wStA'.errors.length + wStA.dispatched.length
      = wStA.pages.length + wStA.errors.length + wStA'.dispatched.length :=
  crawl_dispatch_once wCfgA wOracle 10 wStA wStA' (by decide) (by decide) (by decide)

def cexPersist : PersistedState :=
  ⟨[], [],
   [⟨"http://h/", [], none⟩, ⟨"http://h/a", [], none⟩, ⟨"http://h/b", [], none⟩],
   [], 0, []⟩

def cexCfgPages : CrawlCfg := ⟨1, 2, 2, "http://h", [], [], none⟩

/-- C2 counterexample: resume hydration pushes persisted pages without
truncation, so a run resumed from three persisted pages under `maxPages = 2`
immediately returns `totalPages = 3 > 2`. -/
theorem crawl_totalPages_exceeds_cex :
    cexCfgPages.maxPages = 2 ∧
    (crawlLoop cexCfgPages wOracle 1
        (seedStart cexCfgPages "x" (hydrate true cexPersist))).map
      (fun s => s.pages.length) = some 3 :=
  ⟨rfl, by decide⟩

/-- C2 (amended): the crawl loop never pushes `pages` beyond
`max maxPages entryPages` — so `totalPages ≤ maxPages` whenever the run does
not start from a hydrated page list already above the budget — and, given at
least one concurrency slot, the loop terminates (a final state is reached
under some fuel) on every frontier, including infinite ones fed by the
oracle. -/
theorem crawl_page_budget (cfg : CrawlCfg) (o : String → ScrapeOutcome)
    (st : CrawlState) (hc : 1 ≤ cfg.concurrency) :
    (∀ fuel st', crawlLoop cfg o fuel st = some st' →
        st'.pages.length ≤ max cfg.maxPages st.pages.length) ∧
    (∃ fuel st', crawlLoop cfg o fuel st = some st') :=
  ⟨fun fuel st' h => crawlLoop_pages_bound cfg o fuel st st' h,
   crawlLoop_term cfg o hc (cfg.maxPages - st.pages.length) st.queue.length st
     le_rfl le_rfl⟩

/-- Witness for the C2 theorem on a concrete configuration and seeded start
state. -/
theorem crawl_page_budget_witness :
    (∀ fuel st', crawlLoop wCfgA wOracle fuel wStA = some st' →
        st'.pages.length ≤ max wCfgA.maxPages wStA.pages.length) ∧
    (∃ fuel st', crawlLoop wCfgA wOracle fuel wStA = some st') :=
  crawl_page_budget wCfgA wOracle wStA (by decide)

/-- C3: on any run whose entry dispatch trace respects `maxDepth` (vacuously
so on a fresh start), no dispatched item — hence no page or error entry —
exceeds `maxDepth`: deeper dequeued items are silently dropped, never
scraped; every queue item is an entry-queue leftover or respects `maxDepth`;
and a fulfilled item at exactly `maxDepth` is still recorded and
visited-marked but harvests no children (its processing changes only
`visited`, `pages` and `maxDepthReached`). -/
theorem crawl_depth_bound (cfg : CrawlCfg) (o : String → ScrapeOutcome)
    (fuel : Nat) (st st' sx : CrawlState) (item : FrontierItem) (page : ScrapedPageM)
    (hrun : crawlLoop cfg o fuel st = some st')
    (hd : ∀ i ∈ st.dispatched, i.depth ≤ cfg.maxDepth)
    (hor : o item.url = ScrapeOutcome.fulfilled page)
    (herr : errTruthy page.error = false)
    (hdep : item.depth = cfg.maxDepth) :
    (∀ i ∈ st'.dispatched, i.depth ≤ cfg.maxDepth) ∧
    (∀ i ∈ st'.queue, i ∈ st.queue ∨ i.depth ≤ cfg.maxDepth) ∧
    processOne cfg o item sx
      = { sx with
            visited := insertSet (normalizeUrlForDedupe page.url) sx.visited,
            pages := sx.pages ++ [page],
            maxDepthReached := max sx.maxDepthReached item.depth } := by
  obtain ⟨c1, c2⟩ := crawlLoop_depth cfg o st.queue fuel st st' hrun hd
    (fun i hi => Or.inl hi)
  refine ⟨c1, c2, ?_⟩
  show processOutcome cfg item sx (o item.url) = _
  rw [hor]
  simp only [processOutcome]
  rw [if_neg (by simp [herr]), if_neg (by omega)]

def wCfgB : CrawlCfg := ⟨1, 10, 2, "http://h", [], [], none⟩

def wStB : CrawlState := seedStart wCfgB "http://h/" initCrawlState

def wStB' : CrawlState :=
  ⟨["http://h/b", "http://h/a", "http://h/"], [],
   [⟨"http://h/", ["http://h/a", "http://h/b"], none⟩,
    ⟨"http://h/a", ["http://h/c"], none⟩,
    ⟨"http://h/b", ["http://h/c"], none⟩],
   [], 1, [],
   [⟨"http://h/", 0⟩, ⟨"http://h/a", 1⟩, ⟨"http://h/b", 1⟩]⟩

/-- Witness for the C3 theorem: with `maxDepth = 1` the pages `a`, `b` at the
maximum depth are scraped but their links to `c` are not harvested. -/
theorem crawl_depth_bound_witness :
    (∀ i ∈ wStB'.dispatched, i.depth ≤ wCfgB.maxDepth) ∧
    (∀ i ∈ wStB'.queue, i ∈ wStB.queue ∨ i.depth ≤ wCfgB.maxDepth) ∧
    processOne wCfgB wOracle ⟨"http://h/a", 1⟩ initCrawlState
      = { initCrawlState with
            visited := insertSet
              (normalizeUrlForDedupe "http://h/a") initCrawlState.visited,
            pages := initCrawlState.pages ++ [⟨"http://h/a", ["http://h/c"], none⟩],
            maxDepthReached := max initCrawlState.maxDepthReached
              (FrontierItem.mk "http://h/a" 1).depth } :=
  crawl_depth_bound wCfgB wOracle 10 wStB wStB' initCrawlState
    ⟨"http://h/a", 1⟩ ⟨"http://h/a", ["http://h/c"], none⟩
    (by decide) (by decide) (by decide) (by decide) (by decide)

def cexPageEmptyErr : ScrapedPageM := ⟨"http://h/x", [], some ""⟩

/-- C5 counterexample: the success test `!page.metadata?.error` is a JS
truthiness test, so a fulfilled result carrying `metadata.error = ""` — a
present error — is recorded into `pages` and contributes nothing to the
error list, contradicting the claim that a result carrying `metadata.error`
is recorded into `errors`. -/
theorem crawl_error_record_cex :
    cexPageEmptyErr.error ≠ none ∧
    (processOne wCfgB (fun _ => ScrapeOutcome.fulfilled cexPageEmptyErr)
        ⟨"http://h/x", 0⟩ initCrawlState).errors = [] ∧
    (processOne wCfgB (fun _ => ScrapeOutcome.fulfilled cexPageEmptyErr)
        ⟨"http://h/x", 0⟩ initCrawlState).pages = [cexPageEmptyErr] :=
  ⟨by decide, by decide, by decide⟩

/-- C5 (amended): batch processing has all-settled isolation — every batch
item is processed and contributes exactly one entry, to `errors` or to
`pages`, so one failure aborts neither siblings nor the loop.  An item is
recorded into `errors`, keyed by its originally dispatched URL (not the
post-redirect `page.url`) and with the JS `||` fallback message, exactly when
its outcome was rejected or fulfilled with a *truthy* `metadata.error`; a
fulfilled result whose `metadata.error` is absent or the empty string is
recorded into `pages` instead. -/
theorem crawl_batch_error_isolation (cfg : CrawlCfg) (o : String → ScrapeOutcome)
    (batch : List FrontierItem) (st : CrawlState) :
    (processResults cfg o batch st).errors = st.errors ++ batch.filterMap (errEntry o) ∧
    (processResults cfg o batch st).pages = st.pages ++ batch.filterMap (pageEntry o) ∧
    (batch.filterMap (errEntry o)).length + (batch.filterMap (pageEntry o)).length
      = batch.length ∧
    (∀ e ∈ batch.filterMap (errEntry o), ∃ i ∈ batch, e.1 = i.url) := by
  obtain ⟨q1, q2, q3, q4, q5⟩ := processResults_spec cfg o batch st
  refine ⟨q3, q4, entries_length o batch, ?_⟩
  intro e he
  rcases List.mem_filterMap.mp he with ⟨i, hi, hei⟩
  refine ⟨i, hi, ?_⟩
  unfold errEntry at hei
  cases ho : o i.url with
  | rejected msg =>
    rw [ho] at hei
    simp only [errEntryOut] at hei
    cases hei
    rfl
  | fulfilled page =>
    rw [ho] at hei
    simp only [errEntryOut] at hei
    by_cases hb : errTruthy page.error = true
    · rw [if_pos hb] at hei
      cases hei
      rfl
    · rw [if_neg hb] at hei
      cases hei

/-- C6: after resume hydration no frontier item is already visited (persisted
queue items with visited URLs are dropped on load); this persists through
seeding (the start URL is pushed only when unvisited); and a resumed run
never re-dispatches a scrape for a URL of the hydrated visited set — in
particular an already-visited start URL. -/
theorem crawl_resume_hydration (cfg : CrawlCfg) (o : String → ScrapeOutcome)
    (persistPages : Bool) (p : PersistedState) (startUrl : String)
    (fuel : Nat) (st' : CrawlState)
    (hrun : crawlLoop cfg o fuel
        (seedStart cfg startUrl (hydrate persistPages p)) = some st') :
    (∀ i ∈ (hydrate persistPages p).queue,
        ¬ i.url ∈ (hydrate persistPages p).visited) ∧
    (∀ i ∈ (seedStart cfg startUrl (hydrate persistPages p)).queue,
        ¬ i.url ∈ (hydrate persistPages p).visited) ∧
    (∀ i ∈ st'.dispatched, ¬ i.url ∈ (hydrate persistPages p).visited) := by
  have hq0 : ∀ i ∈ (hydrate persistPages p).queue,
      ¬ i.url ∈ (hydrate persistPages p).visited := by
    intro i hi
    have := (List.mem_filter.mp hi).2
    exact of_decide_eq_true this
  have hq1 : ∀ i ∈ (seedStart cfg startUrl (hydrate persistPages p)).queue,
      ¬ i.url ∈ (hydrate persistPages p).visited := by
    intro i hi
    rcases seedStart_queue_mem cfg startUrl (hydrate persistPages p) i hi with h | h
    · exact hq0 i h
    · exact h
  refine ⟨hq0, hq1, ?_⟩
  obtain ⟨c1, c2, c3, c4, c5⟩ :=
    crawlLoop_inv cfg o (hydrate persistPages p).visited fuel
      (seedStart cfg startUrl (hydrate persistPages p)) st' hrun
      (by rw [seedStart_visited]; exact fun x hx => hx)
      (by rw [seedStart_dispatched]; exact fun i hi => absurd hi (List.not_mem_nil i))
      (by rw [seedStart_dispatched]; exact List.nodup_nil)
      (by rw [seedStart_dispatched]; exact fun i hi => absurd hi (List.not_mem_nil i))
  exact c4

def wPersist : PersistedState :=
  ⟨["http://h/"], ["http://h/"],
   [⟨"http://h/", ["http://h/a"], none⟩], [], 0,
   [⟨"http://h/", 1⟩, ⟨"http://h/a", 1⟩]⟩

def wStC' : CrawlState :=
  ⟨["http://h/a", "http://h/"], ["http://h/"],
   [⟨"http://h/", ["http://h/a"], none⟩, ⟨"http://h/a", ["http://h/c"], none⟩],
   [], 1, [],
   [⟨"http://h/a", 1⟩]⟩

/-- Witness for the C6 theorem: a state persisted after visiting the root is
resumed; the persisted frontier copy of the root is dropped on load, the
seeded root is not re-queued, and the run only dispatches the unvisited
page `a`. -/
theorem crawl_resume_hydration_witness :
    (∀ i ∈ (hydrate true wPersist).queue,
        ¬ i.url ∈ (hydrate true wPersist).visited) ∧
    (∀ i ∈ (seedStart wCfgB "http://h/" (hydrate true wPersist)).queue,
        ¬ i.url ∈ (hydrate true wPersist).visited) ∧
    (∀ i ∈ wStC'.dispatched, ¬ i.url ∈ (hydrate true wPersist).visited) :=
  crawl_resume_hydration wCfgB wOracle true wPersist "http://h/" 10 wStC' (by decide)
